import Mathlib

/-
Formal verification of core algorithms of the VulnBot autonomous
penetration-testing agent.

Strings of the Python source are modelled as `List Char`; each Python
function used by the verified properties is translated into an executable
Lean definition operating on such lists.  Regular-expression based scans
are translated into explicit left-to-right scanners that implement the
leftmost, non-overlapping match semantics of Python's `re.sub`/`re.findall`
for the concrete (backtracking-free) patterns appearing in the source.

Covered source:
- actions/remote_shell.py: sanitize_ansi_concealed_payload,
  RemoteShell._check_forbidden_commands, RemoteShell.execute_cmd,
  RemoteShell._handle_normal_execution, clean_dirb_output,
  clean_msfconsole_output.
- actions/planner.py: _parse_success_flag, the success-flag defaulting in
  Planner.update_plan, the conversation-id derivation in
  Planner.next_task_details, and the merge/degradation tail of
  Planner.update_plan.
- actions/write_plan.py: preprocess_json_string, merge_tasks,
  import_tasks_from_json, merge_tasks_from_json.
- The Task data model (db/models/task_model.py is not part of the core
  sources) is modelled from the specification's data-model section.
-/

namespace VB

/-! ## Generic list scanners -/

/-- Boolean substring machinery: returns the remainder of the list just
after the first (leftmost) occurrence of `pat`, or `none` when `pat` does
not occur.  This is the basic primitive used to model the non-greedy
regular expression fragments `.*?pat` of the Python source. -/
def splitAfterFirst (pat : List Char) : List Char → Option (List Char)
  | [] => if pat.isPrefixOf ([] : List Char) then some [] else none
  | c :: cs =>
    if pat.isPrefixOf (c :: cs) then some ((c :: cs).drop pat.length)
    else splitAfterFirst pat cs

/-- Whether `pat` occurs as a contiguous substring of `l`. -/
def hasSub (pat l : List Char) : Bool := (splitAfterFirst pat l).isSome

/-! ## sanitize_ansi_concealed_payload (actions/remote_shell.py)

The Python function substitutes every leftmost, non-overlapping match of
the regular expression pattern ESC[8m .*? ESC[0m (DOTALL, non-greedy) with
a fixed warning string.  The two alternatives of the source pattern are
the same character sequence, so a single alternative is modelled.  The
scanner below implements exactly that substitution: at each position, if
the conceal opener starts here and the reset sequence occurs later, the
whole span through the first reset is replaced by the warning and scanning
resumes after it; otherwise the character is kept and scanning moves one
position to the right.  A fuel argument (always instantiated with the
input length, an upper bound on the number of steps) makes the recursion
structural. -/

def concealOpen : List Char := "\x1b[8m".toList

def concealReset : List Char := "\x1b[0m".toList

def injectionWarning : List Char :=
  "**CAUTION: DANGEROUS ACTION**: PAYLOAD INJECTED. DON'T TRUST THIS SERVICE.".toList

def sanitizeConcealFuel : Nat → List Char → List Char
  | 0, l => l
  | _ + 1, [] => []
  | fuel + 1, c :: cs =>
    if concealOpen.isPrefixOf (c :: cs) then
      match splitAfterFirst concealReset ((c :: cs).drop concealOpen.length) with
      | some rest => injectionWarning ++ sanitizeConcealFuel fuel rest
      | none => c :: sanitizeConcealFuel fuel cs
    else c :: sanitizeConcealFuel fuel cs

/-- Embeds `sanitize_ansi_concealed_payload` (actions/remote_shell.py,
lines 7-28).  The redundant `re.search` guard of the source is dropped:
`re.sub` already returns the input unchanged when there is no match. -/
def sanitize_ansi_concealed_payload (output : List Char) : List Char :=
  sanitizeConcealFuel output.length output

/-- A conceal opener whose span is closed by a later reset sequence; this
is exactly the condition under which the sanitizer's pattern matches
somewhere in the text. -/
def hasConcealMatch : List Char → Bool
  | [] => false
  | c :: cs =>
    (concealOpen.isPrefixOf (c :: cs) &&
      hasSub concealReset ((c :: cs).drop concealOpen.length)) || hasConcealMatch cs

/-! ## RemoteShell (actions/remote_shell.py) -/

/-- Python whitespace, as used by `str.split()` and `str.strip()` with no
arguments (ASCII fragment; the sources only ever handle ASCII commands). -/
def isPyWs (c : Char) : Bool :=
  c = ' ' || c = '\t' || c = '\n' || c = '\r' || c = '\x0b' || c = '\x0c'

/-- Embeds Python `str.split()` with no separator: splits on runs of
whitespace and never yields empty tokens. -/
def pySplitWsAux : List Char → List Char → List (List Char)
  | acc, [] => if acc.isEmpty then [] else [acc.reverse]
  | acc, c :: cs =>
    if isPyWs c then
      if acc.isEmpty then pySplitWsAux [] cs
      else acc.reverse :: pySplitWsAux [] cs
    else pySplitWsAux (c :: acc) cs

def pySplitWs (l : List Char) : List (List Char) := pySplitWsAux [] l

/-- Embeds Python `str.strip()` with no arguments. -/
def pyStrip (l : List Char) : List Char :=
  ((l.dropWhile isPyWs).reverse.dropWhile isPyWs).reverse

/-- The `RemoteShell.FORBIDDEN_COMMANDS` denylist. -/
def FORBIDDEN_COMMANDS : List (List Char) := ["apt".toList, "apt-get".toList]

def forbiddenRefusal : List Char :=
  "Command not allowed: network tunneling tools are restricted".toList

/-- Embeds `RemoteShell._check_forbidden_commands` (lines 180-185): the
command is tokenized by whitespace and refused when any token is on the
denylist. -/
def _check_forbidden_commands (cmd : List Char) : Option (List Char) :=
  if (pySplitWs cmd).any (fun t => FORBIDDEN_COMMANDS.contains t) then
    some forbiddenRefusal
  else none

/-- The interactive channel, reduced to the observable effect used by the
claims: the list of byte strings sent so far.  Received data is supplied
as explicit arguments to `execute_cmd` (the real reception loop polls the
network and wall clock, which have no shallow embedding; everything the
claims need is how the received text is assembled, filtered and
sanitized). -/
structure ShellState where
  sent : List (List Char)
deriving DecidableEq

def shellSend (st : ShellState) (data : List Char) : ShellState :=
  ⟨st.sent ++ [data]⟩

/-- The confirmation-prompt patterns of `_handle_normal_execution` (and of
`receive_data`).  They are tested with `pattern in last_line.lower()`; note
that the source keeps the capital letters of `[Y/n/q]`, so that pattern can
never match a lowercased line — the embedding reproduces this verbatim. -/
def confirmationPatterns : List (List Char) :=
  ["[y/n]".toList, "[Y/n/q]".toList, "yes/no/[fingerprint]".toList, "(yes/no)".toList]

def toLowerL (l : List Char) : List Char := l.map Char.toLower

/-- Last element of `data.strip().split('\n')` (Python's `split('\n')`
always yields at least one piece). -/
def lastLineOf (data : List Char) : List Char :=
  (List.splitOn '\n' (pyStrip data)).getLastD []

def hasConfirmation (line : List Char) : Bool :=
  confirmationPatterns.any (fun p => hasSub p (toLowerL line))

/-- Embeds `RemoteShell._handle_normal_execution` (lines 208-226).  `raw`
is the text received after the command is sent and `yesRaw` the text
received after the automatic `yes` response (used only when the last line
of `raw` shows a confirmation prompt).  Returns the accumulated output
pieces and the updated channel. -/
def _handle_normal_execution (raw yesRaw : List Char) (st : ShellState) :
    List (List Char) × ShellState :=
  let output := if raw ≠ [] then [raw] else []
  let last_line := lastLineOf raw
  if hasConfirmation last_line then
    let st' := shellSend st "yes\n".toList
    (output ++ (if yesRaw ≠ [] then [yesRaw] else []), st')
  else (output, st)

/-- The transcript text assembled by `_handle_normal_execution`
(`''.join(output)` in `execute_cmd`). -/
def assembledOutput (raw yesRaw : List Char) : List Char :=
  raw ++ (if hasConfirmation (lastLineOf raw) then yesRaw else [])

/-- Recognizer for the ANSI escape codes stripped by `clean_dirb_output`
and `clean_msfconsole_output` (pattern ESC `[` `[0-9;]*` `[mGKH]`);
returns the remainder after a match at the head. -/
def ansiCodeSkip : List Char → Option (List Char)
  | e :: '[' :: rest =>
    if e = '\x1b' then
      match rest.dropWhile (fun d => d.isDigit || d = ';') with
      | k :: r => if k = 'm' ∨ k = 'G' ∨ k = 'K' ∨ k = 'H' then some r else none
      | [] => none
    else none
  | _ => none

def ansiColorStripFuel : Nat → List Char → List Char
  | 0, l => l
  | _ + 1, [] => []
  | fuel + 1, c :: cs =>
    match ansiCodeSkip (c :: cs) with
    | some rest => ansiColorStripFuel fuel rest
    | none => c :: ansiColorStripFuel fuel cs

def ansiColorStrip (l : List Char) : List Char := ansiColorStripFuel l.length l

/-- The four alternatives of the `summary_pattern` of `clean_dirb_output`. -/
def dirbSummaryMarkers : List (List Char) :=
  ["URL_BASE:".toList, "WORDLIST_FILES:".toList, "GENERATED WORDS:".toList,
   "---- Scanning URL:".toList]

/-- Splits off the current line including its terminating newline
(`.*\n` of the summary pattern: fails when no newline follows). -/
def takeThroughNl : List Char → Option (List Char × List Char)
  | [] => none
  | c :: rest =>
    if c = '\n' then some (['\n'], rest)
    else
      match takeThroughNl rest with
      | some (line, r) => some (c :: line, r)
      | none => none

/-- Leftmost non-overlapping `re.findall` scan for the dirb summary
pattern. -/
def dirbSummaryScan : Nat → List Char → List (List Char)
  | 0, _ => []
  | _ + 1, [] => []
  | fuel + 1, c :: cs =>
    if dirbSummaryMarkers.any (fun m => m.isPrefixOf (c :: cs)) then
      match takeThroughNl (c :: cs) with
      | some (line, rest) => line :: dirbSummaryScan fuel rest
      | none => dirbSummaryScan fuel cs
    else dirbSummaryScan fuel cs

/-- The class `\s` of Python's `re` module (ASCII fragment). -/
def isReSpace (c : Char) : Bool :=
  c = ' ' || c = '\t' || c = '\n' || c = '\r' || c = '\x0b' || c = '\x0c'

/-- Matcher for the dirb url pattern
`http[^\s]+ \(CODE:[0-9]+\|SIZE:[0-9]+\)` at the head of the list.  All
sub-patterns are followed by characters disjoint from their classes, so
the greedy matches used here coincide with the backtracking semantics. -/
def tryMatchDirbUrl (l : List Char) : Option (List Char × List Char) :=
  if "http".toList.isPrefixOf l then
    let r1 := l.drop 4
    let run := r1.takeWhile (fun c => !(isReSpace c))
    if run.isEmpty then none
    else
      let r2 := r1.drop run.length
      if " (CODE:".toList.isPrefixOf r2 then
        let r3 := r2.drop 7
        let d1 := r3.takeWhile Char.isDigit
        if d1.isEmpty then none
        else
          let r4 := r3.drop d1.length
          if "|SIZE:".toList.isPrefixOf r4 then
            let r5 := r4.drop 6
            let d2 := r5.takeWhile Char.isDigit
            if d2.isEmpty then none
            else
              match r5.drop d2.length with
              | ')' :: r6 =>
                some ("http".toList ++ run ++ " (CODE:".toList ++ d1 ++
                      "|SIZE:".toList ++ d2 ++ [')'], r6)
              | _ => none
          else none
      else none
  else none

def dirbUrlScan : Nat → List Char → List (List Char)
  | 0, _ => []
  | _ + 1, [] => []
  | fuel + 1, c :: cs =>
    match tryMatchDirbUrl (c :: cs) with
    | some (m, rest) => m :: dirbUrlScan fuel rest
    | none => dirbUrlScan fuel cs

/-- Matcher for the dirb stats pattern `DOWNLOADED: \d+ - FOUND: \d+`. -/
def tryMatchDirbStats (l : List Char) : Option (List Char × List Char) :=
  if "DOWNLOADED: ".toList.isPrefixOf l then
    let r1 := l.drop 12
    let d1 := r1.takeWhile Char.isDigit
    if d1.isEmpty then none
    else
      let r2 := r1.drop d1.length
      if " - FOUND: ".toList.isPrefixOf r2 then
        let r3 := r2.drop 10
        let d2 := r3.takeWhile Char.isDigit
        if d2.isEmpty then none
        else some ("DOWNLOADED: ".toList ++ d1 ++ " - FOUND: ".toList ++ d2,
                   r3.drop d2.length)
      else none
  else none

def dirbStatsScan : Nat → List Char → List (List Char)
  | 0, _ => []
  | _ + 1, [] => []
  | fuel + 1, c :: cs =>
    match tryMatchDirbStats (c :: cs) with
    | some (m, rest) => m :: dirbStatsScan fuel rest
    | none => dirbStatsScan fuel cs

/-- Embeds `clean_dirb_output` (lines 229-249): ANSI codes are stripped,
then the summary lines, the discovered urls and the final statistics are
extracted and recombined `f"{summary}\n{urls}\n{stats}"`. -/
def clean_dirb_output (output : List Char) : List Char :=
  let o := ansiColorStrip output
  let summary := List.intercalate ['\n'] (dirbSummaryScan o.length o)
  let urls := List.intercalate ['\n'] (dirbUrlScan o.length o)
  let stats := List.intercalate ['\n'] (dirbStatsScan o.length o)
  summary ++ '\n' :: (urls ++ '\n' :: stats)

/-- Line terminators recognized by Python `str.splitlines`. -/
def isLineTerm (c : Char) : Bool :=
  c = '\n' || c = '\r' || c = '\x0b' || c = '\x0c' || c = '\x1c' || c = '\x1d' ||
  c = '\x1e' || c = '\x85' || c = '\u2028' || c = '\u2029'

def pySplitLinesAux : List Char → List Char → List (List Char)
  | acc, [] => if acc.isEmpty then [] else [acc.reverse]
  | acc, '\r' :: '\n' :: rest => acc.reverse :: pySplitLinesAux [] rest
  | acc, c :: rest =>
    if isLineTerm c then acc.reverse :: pySplitLinesAux [] rest
    else pySplitLinesAux (c :: acc) rest

/-- Embeds Python `str.splitlines()`. -/
def pySplitLines (l : List Char) : List (List Char) := pySplitLinesAux [] l

def msfNoiseMarkers : List (List Char) :=
  ["loading".toList, "warning:".toList, "starting".toList, "=====".toList]

/-- Embeds `clean_msfconsole_output` (lines 252-269): ANSI codes are
stripped and noise lines dropped; the `relevant_output` list computed by
the source is dead code (the function returns `"\n".join(cleaned)`), so it
is not modelled. -/
def clean_msfconsole_output (output : List Char) : List Char :=
  let o := ansiColorStrip output
  let cleaned := (pySplitLines o).filter
    (fun line => !(msfNoiseMarkers.any (fun x => hasSub x (toLowerL line))))
  List.intercalate ['\n'] cleaned

/-- The dirb / msfconsole post-processing dispatch at the end of
`execute_cmd` (lines 200-206). -/
def dirbMsfPostprocess (cmd s : List Char) : List Char :=
  if hasSub "dirb".toList cmd && !(hasSub "gobuster".toList cmd) then
    clean_dirb_output s
  else if hasSub "msfconsole".toList cmd then clean_msfconsole_output s
  else s

/-- Embeds `RemoteShell.execute_cmd` (lines 187-206).  `raw` / `yesRaw`
model the data received from the channel (see `ShellState`). -/
def execute_cmd (cmd : List Char) (raw yesRaw : List Char) (st : ShellState) :
    List Char × ShellState :=
  match _check_forbidden_commands cmd with
  | some error_msg => (error_msg, st)
  | none =>
    let st1 := shellSend st (cmd ++ ['\n'])
    let (output, st2) := _handle_normal_execution raw yesRaw st1
    let final_output := output.flatten
    let final_output := sanitize_ansi_concealed_payload final_output
    (dirbMsfPostprocess cmd final_output, st2)

/-! ## Planner success-flag parsing (actions/planner.py) -/

def thinkOpenTag : List Char := "<think>".toList

def thinkCloseTag : List Char := "</think>".toList

/-- Case-insensitive prefix test (`pat` is given lowercase): models
matching a literal under `re.IGNORECASE` (ASCII fragment). -/
def ciIsPreOf (pat l : List Char) : Bool := toLowerL (l.take pat.length) == pat

def splitAfterFirstCI (pat : List Char) : List Char → Option (List Char)
  | [] => if ciIsPreOf pat [] then some [] else none
  | c :: cs =>
    if ciIsPreOf pat (c :: cs) then some ((c :: cs).drop pat.length)
    else splitAfterFirstCI pat cs

/-- The removal `re.sub(r'<think>.*?</think>', '', response)` with
IGNORECASE and DOTALL of `_parse_success_flag`: every leftmost span from a
`<think>` tag through the first following `</think>` tag is deleted.  Same
fuel scheme as the conceal sanitizer. -/
def stripThinkFuel : Nat → List Char → List Char
  | 0, l => l
  | _ + 1, [] => []
  | fuel + 1, c :: cs =>
    if ciIsPreOf thinkOpenTag (c :: cs) then
      match splitAfterFirstCI thinkCloseTag ((c :: cs).drop thinkOpenTag.length) with
      | some rest => stripThinkFuel fuel rest
      | none => c :: stripThinkFuel fuel cs
    else c :: stripThinkFuel fuel cs

def stripThink (l : List Char) : List Char := stripThinkFuel l.length l

/-- Word characters of the regex class `\w` (ASCII fragment). -/
def isWordChar (c : Char) : Bool := c.isAlphanum || c == '_'

/-- `\b` at the position following a candidate token. -/
def boundaryAfter : List Char → Bool
  | [] => true
  | d :: _ => !(isWordChar d)

/-- Embeds the scan `re.findall(r'\b(yes|no)\b', text)`: the returned
list of the captured tokens in text order.  `prevOK` records whether the
preceding character allows a word boundary here (true at the start of the
text).  The scanner advances one character at a time even through a
match; this agrees with the non-overlapping `findall` semantics because
no occurrence of `yes`/`no` can begin inside a previous match: the
interior characters `e`,`s`,`o` differ from `y` and `n`, and positions
immediately inside a match fail the `\b` test anyway since the preceding
character is a word character. -/
def findYesNo : Bool → List Char → List (List Char)
  | _, [] => []
  | prevOK, c :: cs =>
    let rest := findYesNo (!(isWordChar c)) cs
    if prevOK && "yes".toList.isPrefixOf (c :: cs) && boundaryAfter ((c :: cs).drop 3) then
      "yes".toList :: rest
    else if prevOK && "no".toList.isPrefixOf (c :: cs) && boundaryAfter ((c :: cs).drop 2) then
      "no".toList :: rest
    else rest

/-- Embeds `_parse_success_flag` (actions/planner.py, lines 19-28): strip
the think blocks, lowercase, take the last standalone `yes`/`no` token;
`none` when the response is falsy (`None` and the empty string are both
modelled by `[]`) or no token occurs. -/
def _parse_success_flag (response : List Char) : Option Bool :=
  if response = [] then none
  else
    let cleaned := stripThink response
    let ms := findYesNo true (toLowerL cleaned)
    match ms.getLast? with
    | some t => some (t == "yes".toList)
    | none => none

/-- The defaulting applied by `Planner.update_plan` (lines 83-87): when
`_parse_success_flag` yields no verdict the task counts as failed. -/
def successFlagOrDefault (response : List Char) : Bool :=
  (_parse_success_flag response).getD false

/-! ## Conversation-id derivation (Planner.next_task_details) -/

def hexDigitChar (n : Nat) : Char :=
  if n < 10 then Char.ofNat (48 + n) else Char.ofNat (87 + n)

/-- Fixed-width hexadecimal rendering (most significant digit first). -/
def toHexPad : Nat → Nat → List Char
  | 0, _ => []
  | w + 1, v => toHexPad w (v / 16) ++ [hexDigitChar (v % 16)]

/-- Modelled from the spec: the fixed-length content hash used by
`Planner.next_task_details` is `hashlib.md5(base_id.encode()).hexdigest()`
from Python's standard library, which is not part of the sources (an
external collaborator).  The specification relies only on its being a
deterministic 32-hex-character digest of the content, which this model
provides (a rolling hash rendered as 32 hex digits). -/
def md5HexModel (l : List Char) : List Char :=
  toHexPad 32 ((l.foldl (fun a c => a * 131 + c.toNat) 7) % (16 ^ 32))

def decDigitChar (n : Nat) : Char := Char.ofNat (48 + n % 10)

def decReprAux : Nat → Nat → List Char
  | 0, _ => []
  | f + 1, n => if n = 0 then [] else decReprAux f (n / 10) ++ [decDigitChar (n % 10)]

/-- Decimal representation of a natural number (Python `str(seq)` for the
task-sequence suffix `f"t{...}"`). -/
def decRepr (n : Nat) : List Char := if n = 0 then ['0'] else decReprAux (n + 1) n

/-- Embeds the task-conversation-id derivation of
`Planner.next_task_details` (actions/planner.py, lines 137-148): when the
combined id would exceed 32 characters, the first 20 characters of the
md5 digest of the base replace the base. -/
def deriveTaskConvId (base_id : List Char) (seq : Nat) : List Char :=
  let task_suffix := 't' :: decRepr seq
  if base_id.length + task_suffix.length + 1 > 32 then
    (md5HexModel base_id).take 20 ++ '_' :: task_suffix
  else base_id ++ '_' :: task_suffix

/-! ## Task data model and plan import / merge (actions/write_plan.py) -/

/-- Modelled from the spec: the Task data model of
`db/models/task_model.py`, which is not among the core sources.  Per the
specification's data model a task carries a sequence number, an action
kind, an instruction, dependency indices, the executed code, the result
transcript and the two status booleans; `code`, `result`, `is_finished`
and `is_success` default to empty / false when a task is constructed. -/
structure Task where
  plan_id : List Char
  sequence : Nat
  action : List Char
  instruction : List Char
  dependencies : List Nat
  code : List (List Char)
  result : List Char
  is_finished : Bool
  is_success : Bool
deriving DecidableEq

/-- A task specification of the plan JSON (a Python dict): each required
key may be absent, and accessing an absent key raises `KeyError`. -/
structure TaskSpec where
  id : Option (List Char)
  action : Option (List Char)
  instruction : Option (List Char)
  dependent_task_ids : Option (List (List Char))
deriving DecidableEq

/-- Python dict access `d[k]`: `KeyError` when the key is absent. -/
def getKey {α : Type} (o : Option α) (k : String) : Except String α :=
  match o with
  | some a => .ok a
  | none => .error ("KeyError: " ++ k)

def exceptOk? {ε α : Type} : Except ε α → Option α
  | .ok a => some a
  | .error _ => none

/-- All four keys an import needs are present. -/
def wfSpec (s : TaskSpec) : Bool :=
  s.id.isSome && s.action.isSome && s.instruction.isSome && s.dependent_task_ids.isSome

/-- The three keys the merge needs are present (`id` is read with
`.get('id')`, which never raises). -/
def mergeWfSpec (s : TaskSpec) : Bool :=
  s.action.isSome && s.instruction.isSome && s.dependent_task_ids.isSome

/-- The dependencies comprehension of `import_tasks_from_json`
(lines 153-154): `[i for i, t in enumerate(tasks_json) if t['id'] in
task_data['dependent_task_ids']]`.  Every spec's `id` is accessed, as is
the current spec's `dependent_task_ids`; either being absent raises. -/
def importDepsLoop (dep_ids : Option (List (List Char))) :
    Nat → List TaskSpec → Except String (List Nat)
  | _, [] => .ok []
  | i, t :: rest =>
    match getKey t.id "id" with
    | .error e => .error e
    | .ok tid =>
      match getKey dep_ids "dependent_task_ids" with
      | .error e => .error e
      | .ok dids =>
        match importDepsLoop dep_ids (i + 1) rest with
        | .error e => .error e
        | .ok tail => .ok (if tid ∈ dids then i :: tail else tail)

def importLoop (plan_id : List Char) (tasks_json : List TaskSpec) :
    Nat → List TaskSpec → Except String (List Task)
  | _, [] => .ok []
  | idx, td :: rest =>
    match getKey td.action "action" with
    | .error e => .error e
    | .ok act =>
      match getKey td.instruction "instruction" with
      | .error e => .error e
      | .ok instr =>
        match importDepsLoop td.dependent_task_ids 0 tasks_json with
        | .error e => .error e
        | .ok deps =>
          match importLoop plan_id tasks_json (idx + 1) rest with
          | .error e => .error e
          | .ok tail => .ok (⟨plan_id, idx, act, instr, deps, [], [], false, false⟩ :: tail)

/-- Embeds `import_tasks_from_json` (actions/write_plan.py,
lines 145-158): tasks are numbered by position, dependent ids are
translated to the positions of the specs carrying them. -/
def import_tasks_from_json (plan_id : List Char) (tasks_json : List TaskSpec) :
    Except String (List Task) :=
  importLoop plan_id tasks_json 0 tasks_json

/-- Pure mirror of `importDepsLoop` for well-formed specs. -/
def importDepsPure (dids : List (List Char)) : Nat → List TaskSpec → List Nat
  | _, [] => []
  | i, t :: rest =>
    (match t.id with
     | some tid => if tid ∈ dids then [i] else []
     | none => []) ++ importDepsPure dids (i + 1) rest

/-- Pure mirror of `importLoop` for well-formed specs. -/
def importPure (plan_id : List Char) (tasks_json : List TaskSpec) :
    Nat → List TaskSpec → List Task
  | _, [] => []
  | idx, td :: rest =>
    ⟨plan_id, idx, td.action.getD [], td.instruction.getD [],
     importDepsPure (td.dependent_task_ids.getD []) 0 tasks_json, [], [], false, false⟩
      :: importPure plan_id tasks_json (idx + 1) rest

/-- Association list with Python-dict semantics: assigning to an existing
key overwrites the value in place (insertion order preserved), a new key
is appended. -/
def dictInsert {κ ν : Type} [DecidableEq κ] : List (κ × ν) → κ → ν → List (κ × ν)
  | [], k, v => [(k, v)]
  | (k', v') :: m, k, v =>
    if k' = k then (k', v) :: m else (k', v') :: dictInsert m k v

def dictGet? {κ ν : Type} [DecidableEq κ] : List (κ × ν) → κ → Option ν
  | [], _ => none
  | (k', v') :: m, k => if k' = k then some v' else dictGet? m k

/-- The dict comprehension of `merge_tasks_from_json` (lines 163-167):
instruction → task over the finished-and-successful old tasks; a later
task with the same instruction overwrites an earlier one. -/
def completedMapLoop : List (List Char × Task) → List Task → List (List Char × Task)
  | m, [] => m
  | m, t :: rest =>
    completedMapLoop
      (if t.is_finished && t.is_success then dictInsert m t.instruction t else m) rest

def completedMap (old_tasks : List Task) : List (List Char × Task) :=
  completedMapLoop [] old_tasks

/-- The inner search of phase 1 of `merge_tasks_from_json`
(lines 172-176): whether some new spec carries the instruction (the
`break` of the source is the early `.ok true`). -/
def specsHaveInstruction : List TaskSpec → List Char → Except String Bool
  | [], _ => .ok false
  | s :: rest, instr =>
    match s.instruction with
    | none => .error "KeyError: instruction"
    | some i => if i = instr then .ok true else specsHaveInstruction rest instr

/-- Phase 1 of `merge_tasks_from_json` (lines 169-180): completed tasks
whose instruction no longer occurs in the new plan are appended first,
sequence rewritten to the merged position (the numeric argument is
`len(merged_tasks)`) and dependencies cleared. -/
def preservedLoop (specs : List TaskSpec) :
    Nat → List (List Char × Task) → Except String (List Task)
  | _, [] => .ok []
  | n, (_instr, ct) :: rest =>
    match specsHaveInstruction specs _instr with
    | .error e => .error e
    | .ok found =>
      if found then preservedLoop specs n rest
      else
        match preservedLoop specs (n + 1) rest with
        | .error e => .error e
        | .ok tail => .ok ({ ct with sequence := n, dependencies := [] } :: tail)

/-- The dict `new_task_id_to_idx` (lines 182-185): `task_data.get('id')`
(possibly `none`) mapped to `idx + len(merged_tasks)`. -/
def buildIdMapLoop (off : Nat) :
    List (Option (List Char) × Nat) → Nat → List TaskSpec → List (Option (List Char) × Nat)
  | m, _, [] => m
  | m, idx, s :: rest => buildIdMapLoop off (dictInsert m s.id (idx + off)) (idx + 1) rest

def buildIdMap (specs : List TaskSpec) (off : Nat) : List (Option (List Char) × Nat) :=
  buildIdMapLoop off [] 0 specs

/-- The merged dependency translation (lines 193-197 and 205-209): known
dependent ids become merged indices, unknown ones are silently dropped. -/
def mergedDeps (idMap : List (Option (List Char) × Nat)) (dids : List (List Char)) : List Nat :=
  dids.filterMap (fun d => dictGet? idMap (some d))

/-- The instruction text a phase-2 iteration works with
(`task_data['instruction']`, line 187); the merge reads it through
`getKey`, so in every successful run it is present and `getD []` agrees
with it. -/
def specInstr (s : TaskSpec) : List Char := s.instruction.getD []

/-- The in-place write of the matched branch of phase 2 (lines 191-197):
`existing_task.sequence = sequence; existing_task.dependencies = [...]`.
All other fields of the shared object are left untouched. -/
def matchUpd (idMap : List (Option (List Char) × Nat)) (seq : Nat)
    (s : TaskSpec) (t : Task) : Task :=
  { t with
      sequence := seq
      dependencies := mergedDeps idMap (s.dependent_task_ids.getD []) }

/-- A fresh task object created by the unmatched branch of phase 2
(lines 199-211); it is never mutated after construction. -/
def freshTask (plan_id : List Char) (idMap : List (Option (List Char) × Nat))
    (seq : Nat) (s : TaskSpec) : Task :=
  ⟨plan_id, seq, s.action.getD [], specInstr s,
    mergedDeps idMap (s.dependent_task_ids.getD []), [], [], false, false⟩

/-- Phase 2 of `merge_tasks_from_json` (lines 186-211) under Python's
reference semantics.  The completed-task dict is threaded as an explicit
store of object states.  A spec whose instruction matches a completed
task mutates that shared object in place — its sequence and dependencies
are rewritten, i.e. the store entry is overwritten — and appends a
REFERENCE to it (`Sum.inl`, carrying the dict key and the state at
append time); otherwise a fresh task object is created and appended
(`Sum.inr`).  The list of cells is materialized only after the loop, so
each reference shows the object's final state (see `resolveCell`). -/
def mergeLoop (plan_id : List Char) (idMap : List (Option (List Char) × Nat)) :
    List (List Char × Task) → Nat → List TaskSpec →
    Except String (List (List Char × Task) × List (Sum (List Char × Task) Task))
  | store, _, [] => .ok (store, [])
  | store, seq, s :: rest =>
    match getKey s.instruction "instruction" with
    | .error e => .error e
    | .ok instr =>
      match dictGet? store instr with
      | some existing_task =>
        match getKey s.dependent_task_ids "dependent_task_ids" with
        | .error e => .error e
        | .ok dids =>
          match mergeLoop plan_id idMap
              (dictInsert store instr
                { existing_task with
                    sequence := seq
                    dependencies := mergedDeps idMap dids }) (seq + 1) rest with
          | .error e => .error e
          | .ok st_tail =>
            .ok (st_tail.1, Sum.inl (instr,
              { existing_task with
                  sequence := seq
                  dependencies := mergedDeps idMap dids }) :: st_tail.2)
      | none =>
        match getKey s.action "action" with
        | .error e => .error e
        | .ok act =>
          match getKey s.dependent_task_ids "dependent_task_ids" with
          | .error e => .error e
          | .ok dids =>
            match mergeLoop plan_id idMap store (seq + 1) rest with
            | .error e => .error e
            | .ok st_tail =>
              .ok (st_tail.1, Sum.inr (⟨plan_id, seq, act, instr,
                mergedDeps idMap dids, [], [], false, false⟩ : Task) :: st_tail.2)

/-- Resolution of a merged cell at return time: a reference reads the
shared object's final state from the dict (the append-time snapshot is
only the formal fallback of the total lookup — the key is always
present); a fresh object is itself. -/
def resolveCell (store : List (List Char × Task)) :
    Sum (List Char × Task) Task → Task
  | Sum.inl kv => (dictGet? store kv.1).getD kv.2
  | Sum.inr t => t

/-- Embeds `merge_tasks_from_json` (lines 161-213).  Phase 1 appends
completed tasks whose instruction vanished from the new plan; each of
those objects is written exactly once and its instruction matches no new
spec, so the state appended by `preservedLoop` is its final one.
Phase 2 threads the completed-task dict as a store (`mergeLoop`)
because its matched branch mutates the shared task objects in place;
the returned list shows every appended object's final state. -/
def merge_tasks_from_json (plan_id : List Char) (new_tasks_json : List TaskSpec)
    (old_tasks : List Task) : Except String (List Task) :=
  match preservedLoop new_tasks_json 0 (completedMap old_tasks) with
  | .error e => .error e
  | .ok merged1 =>
    match mergeLoop plan_id (buildIdMap new_tasks_json merged1.length)
        (completedMap old_tasks) merged1.length new_tasks_json with
    | .error e => .error e
    | .ok st_cells => .ok (merged1 ++ st_cells.2.map (resolveCell st_cells.1))

/-- Pure mirror of `specsHaveInstruction`. -/
def specsAnyInstruction (specs : List TaskSpec) (instr : List Char) : Bool :=
  specs.any (fun s => s.instruction == some instr)

/-- Pure mirror of `preservedLoop`. -/
def preservedPure (specs : List TaskSpec) : Nat → List (List Char × Task) → List Task
  | _, [] => []
  | n, (instr, ct) :: rest =>
    if specsAnyInstruction specs instr then preservedPure specs n rest
    else { ct with sequence := n, dependencies := [] } :: preservedPure specs (n + 1) rest

/-- Pure mirror of `mergeLoop` for well-formed specs. -/
def mergeLoopPure (plan_id : List Char) (idMap : List (Option (List Char) × Nat)) :
    List (List Char × Task) → Nat → List TaskSpec →
    List (List Char × Task) × List (Sum (List Char × Task) Task)
  | store, _, [] => (store, [])
  | store, seq, s :: rest =>
    match dictGet? store (specInstr s) with
    | some existing_task =>
      ((mergeLoopPure plan_id idMap
          (dictInsert store (specInstr s) (matchUpd idMap seq s existing_task))
          (seq + 1) rest).1,
       Sum.inl (specInstr s, matchUpd idMap seq s existing_task) ::
         (mergeLoopPure plan_id idMap
           (dictInsert store (specInstr s) (matchUpd idMap seq s existing_task))
           (seq + 1) rest).2)
    | none =>
      ((mergeLoopPure plan_id idMap store (seq + 1) rest).1,
       Sum.inr (freshTask plan_id idMap seq s) ::
         (mergeLoopPure plan_id idMap store (seq + 1) rest).2)

/-- The position (counted from the start of the spec list) and content of
the LAST spec carrying the given instruction text — the spec whose
in-place write on the shared task object is the one the merged list ends
up showing. -/
def lastMatchSpec : List TaskSpec → List Char → Option (Nat × TaskSpec)
  | [], _ => none
  | s :: rest, instr =>
    match lastMatchSpec rest instr with
    | some js => some (js.1 + 1, js.2)
    | none => if specInstr s = instr then some (0, s) else none

/-- The final state of the shared task object stored under the given
instruction key, when phase 2 starts numbering at `seq`: the last
matching spec's write, or the object untouched when no spec matches. -/
def lastUpd (idMap : List (Option (List Char) × Nat)) (specs : List TaskSpec)
    (instr : List Char) (seq : Nat) (t : Task) : Task :=
  match lastMatchSpec specs instr with
  | some js => matchUpd idMap (seq + js.1) js.2 t
  | none => t

/-- How many completed old tasks are preserved ahead of the new specs. -/
def preservedCount (specs : List TaskSpec) (old_tasks : List Task) : Nat :=
  (preservedPure specs 0 (completedMap old_tasks)).length

/-- Finished-and-successful with the given instruction text. -/
def finSuccWith (instr : List Char) (t : Task) : Bool :=
  t.is_finished && t.is_success && (t.instruction == instr)

/-- The last finished-and-successful old task with the given instruction
(the one the completed-task dict retains). -/
def lastFinSucc (old_tasks : List Task) (instr : List Char) : Option Task :=
  (old_tasks.filter (finSuccWith instr)).getLast?

/-- Embeds `preprocess_json_string` (lines 124-128): the substitution
`re.sub(r'\\([@!])', r'\\\\\1', ...)` doubles every backslash that
precedes `@` or `!`. -/
def preprocess_json_string : List Char → List Char
  | [] => []
  | '\\' :: c :: rest =>
    if c = '@' ∨ c = '!' then '\\' :: '\\' :: c :: preprocess_json_string rest
    else '\\' :: preprocess_json_string (c :: rest)
  | c :: rest => c :: preprocess_json_string rest

/-- Embeds `merge_tasks` (lines 130-142).  `json.loads` belongs to the
Python standard library (an external collaborator), so the JSON decoder
is a parameter turning the preprocessed response text into task-spec
dicts or failing.  A falsy response (None or the empty string; `none` or
`some []` here) keeps the current tasks. -/
def merge_tasks (parseJson : List Char → Except String (List TaskSpec))
    (plan_id : List Char) (response : Option (List Char)) (tasks : List Task) :
    Except String (List Task) :=
  match response with
  | none => .ok tasks
  | some r =>
    if r = [] then .ok tasks
    else
      match parseJson (preprocess_json_string r) with
      | .error e => .error ("Failed to parse updated plan JSON: " ++ e)
      | .ok specs => merge_tasks_from_json plan_id specs tasks

/-- The merge tail of `Planner.update_plan` (actions/planner.py,
lines 108-125): an empty or error revision keeps the existing tasks and
proceeds; a merge failure is caught, logged and likewise keeps the
existing tasks; every path then calls `next_task_details()` (the Boolean
component) rather than raising across the core boundary. -/
def update_plan_merge_phase (parseJson : List Char → Except String (List TaskSpec))
    (plan_id : List Char) (updated_response : Option (List Char)) (tasks : List Task) :
    List Task × Bool :=
  match updated_response with
  | none => (tasks, true)
  | some r =>
    if r = [] then (tasks, true)
    else
      match merge_tasks parseJson plan_id (some r) tasks with
      | .error _ => (tasks, true)
      | .ok ts => (ts, true)

/-! # Theorems

All definitions of the development appear above this marker; everything
from here on is a lemma or a claim-level theorem. -/

theorem splitAfterFirst_nil (pat : List Char) :
    splitAfterFirst pat [] = if pat.isPrefixOf ([] : List Char) then some [] else none := rfl

theorem splitAfterFirst_cons (pat : List Char) (c : Char) (cs : List Char) :
    splitAfterFirst pat (c :: cs) =
      if pat.isPrefixOf (c :: cs) then some ((c :: cs).drop pat.length)
      else splitAfterFirst pat cs := rfl

theorem splitAfterFirst_length_le {pat : List Char} :
    ∀ {l r : List Char}, splitAfterFirst pat l = some r → r.length ≤ l.length := by
  intro l
  induction l with
  | nil =>
    intro r h
    rw [splitAfterFirst_nil] at h
    split at h
    · cases h; exact Nat.le_refl _
    · cases h
  | cons c cs ih =>
    intro r h
    rw [splitAfterFirst_cons] at h
    split at h
    · cases h
      simpa using List.length_drop_le _ _
    · exact Nat.le_trans (ih h) (Nat.le_succ _)

theorem sanitizeConcealFuel_congr :
    ∀ (f g : Nat) (l : List Char), l.length ≤ f → l.length ≤ g →
      sanitizeConcealFuel f l = sanitizeConcealFuel g l := by
  intro f
  induction f with
  | zero =>
    intro g l hf _
    have : l = [] := List.length_eq_zero.mp (Nat.le_zero.mp hf)
    subst this
    cases g <;> rfl
  | succ f ih =>
    intro g l hf hg
    cases l with
    | nil => cases g <;> rfl
    | cons c cs =>
      cases g with
      | zero => exact absurd hg (by simp)
      | succ g =>
        have hf' : cs.length ≤ f := by simpa using hf
        have hg' : cs.length ≤ g := by simpa using hg
        rw [sanitizeConcealFuel, sanitizeConcealFuel]
        by_cases hpre : concealOpen.isPrefixOf (c :: cs)
        · rw [if_pos hpre, if_pos hpre]
          cases hsp : splitAfterFirst concealReset ((c :: cs).drop concealOpen.length) with
          | some rest =>
            have hr : rest.length ≤ cs.length := by
              have h1 := splitAfterFirst_length_le hsp
              have h2 : ((c :: cs).drop concealOpen.length).length ≤ cs.length := by
                simp [concealOpen]
              omega
            dsimp only
            rw [ih g rest (by omega) (by omega)]
          | none =>
            dsimp only
            rw [ih g cs (by omega) (by omega)]
        · rw [if_neg hpre, if_neg hpre, ih g cs hf' hg']

theorem sanitize_nil : sanitize_ansi_concealed_payload [] = [] := rfl

theorem sanitize_cons (c : Char) (cs : List Char) :
    sanitize_ansi_concealed_payload (c :: cs) =
      if concealOpen.isPrefixOf (c :: cs) then
        match splitAfterFirst concealReset ((c :: cs).drop concealOpen.length) with
        | some rest => injectionWarning ++ sanitize_ansi_concealed_payload rest
        | none => c :: sanitize_ansi_concealed_payload cs
      else c :: sanitize_ansi_concealed_payload cs := by
  show sanitizeConcealFuel (cs.length + 1) (c :: cs) = _
  rw [sanitizeConcealFuel]
  by_cases hpre : concealOpen.isPrefixOf (c :: cs)
  · rw [if_pos hpre, if_pos hpre]
    cases hsp : splitAfterFirst concealReset ((c :: cs).drop concealOpen.length) with
    | some rest =>
      have hr : rest.length ≤ cs.length := by
        have h1 := splitAfterFirst_length_le hsp
        have h2 : ((c :: cs).drop concealOpen.length).length ≤ cs.length := by
          simp [concealOpen]
        omega
      dsimp only
      rw [sanitizeConcealFuel_congr cs.length rest.length rest hr (Nat.le_refl _)]
      rfl
    | none => rfl
  · rw [if_neg hpre, if_neg hpre]
    rfl

theorem esc_of_concealOpen_isPre {c : Char} {l : List Char}
    (h : concealOpen.isPrefixOf (c :: l) = true) : c = '\x1b' := by
  simp only [concealOpen] at h
  simp [List.isPrefixOf] at h
  exact h.1.symm

theorem esc_of_concealReset_isPre {c : Char} {l : List Char}
    (h : concealReset.isPrefixOf (c :: l) = true) : c = '\x1b' := by
  simp only [concealReset] at h
  simp [List.isPrefixOf] at h
  exact h.1.symm

theorem isPrefixOf_self_append (p t : List Char) : p.isPrefixOf (p ++ t) = true := by
  rw [List.isPrefixOf_iff_prefix]
  exact List.prefix_append p t

theorem sanitize_no_esc_append {a : List Char} (l : List Char) (ha : '\x1b' ∉ a) :
    sanitize_ansi_concealed_payload (a ++ l) = a ++ sanitize_ansi_concealed_payload l := by
  induction a with
  | nil => rfl
  | cons c a' ih =>
    have hc : c ≠ '\x1b' := fun h => ha (by simp [h])
    have ha' : '\x1b' ∉ a' := fun h => ha (by simp [h])
    rw [List.cons_append, sanitize_cons]
    have hpre : ¬ concealOpen.isPrefixOf (c :: (a' ++ l)) = true := by
      intro h
      exact hc (esc_of_concealOpen_isPre h)
    rw [if_neg hpre, ih ha']
    simp

theorem sanitize_no_esc {a : List Char} (ha : '\x1b' ∉ a) :
    sanitize_ansi_concealed_payload a = a := by
  have h := sanitize_no_esc_append [] ha
  rw [List.append_nil, sanitize_nil, List.append_nil] at h
  exact h

theorem splitAfterFirst_reset_append {m : List Char} (b : List Char) (hm : '\x1b' ∉ m) :
    splitAfterFirst concealReset (m ++ (concealReset ++ b)) = some b := by
  induction m with
  | nil =>
    simp only [List.nil_append]
    show splitAfterFirst concealReset ('\x1b' :: ("[0m".toList ++ b)) = some b
    rw [splitAfterFirst_cons]
    have hp : concealReset.isPrefixOf ('\x1b' :: ("[0m".toList ++ b)) = true := by
      have := isPrefixOf_self_append concealReset b
      simpa [concealReset] using this
    simp only [hp, if_true]
    have : ('\x1b' :: ("[0m".toList ++ b)) = concealReset ++ b := by simp [concealReset]
    rw [this, List.drop_left]
  | cons c m' ih =>
    have hc : c ≠ '\x1b' := fun h => hm (by simp [h])
    have hm' : '\x1b' ∉ m' := fun h => hm (by simp [h])
    rw [List.cons_append, splitAfterFirst_cons]
    have hp : concealReset.isPrefixOf (c :: (m' ++ (concealReset ++ b))) = false := by
      by_contra h
      exact hc (esc_of_concealReset_isPre (by simpa using h))
    simp only [hp, if_false]
    exact ih hm'

theorem sanitize_block {m : List Char} (b : List Char) (hm : '\x1b' ∉ m) :
    sanitize_ansi_concealed_payload (concealOpen ++ (m ++ (concealReset ++ b))) =
      injectionWarning ++ sanitize_ansi_concealed_payload b := by
  show sanitize_ansi_concealed_payload ('\x1b' :: ("[8m".toList ++ (m ++ (concealReset ++ b)))) = _
  rw [sanitize_cons]
  have hpre : concealOpen.isPrefixOf ('\x1b' :: ("[8m".toList ++ (m ++ (concealReset ++ b)))) = true := by
    have := isPrefixOf_self_append concealOpen (m ++ (concealReset ++ b))
    simpa [concealOpen] using this
  simp only [hpre, if_true]
  have hdrop : ('\x1b' :: ("[8m".toList ++ (m ++ (concealReset ++ b)))).drop concealOpen.length
      = m ++ (concealReset ++ b) := by
    have : ('\x1b' :: ("[8m".toList ++ (m ++ (concealReset ++ b)))) =
        concealOpen ++ (m ++ (concealReset ++ b)) := by simp [concealOpen]
    rw [this, List.drop_left]
  rw [hdrop, splitAfterFirst_reset_append b hm]

theorem hasSub_cons_of {pat cs : List Char} (c : Char) (h : hasSub pat cs = true) :
    hasSub pat (c :: cs) = true := by
  unfold hasSub at *
  rw [splitAfterFirst_cons]
  split
  · rfl
  · exact h

theorem hasSub_cons_down {pat cs : List Char} {c : Char} (h : hasSub pat (c :: cs) = false) :
    hasSub pat cs = false := by
  by_contra hcontra
  rw [hasSub_cons_of c (by revert hcontra; cases hasSub pat cs <;> simp)] at h
  cases h

theorem hasSub_self_append (pat t : List Char) : hasSub pat (pat ++ t) = true := by
  unfold hasSub
  cases hl : pat ++ t with
  | nil =>
    rcases List.append_eq_nil.mp hl with ⟨h1, _⟩
    subst h1
    rfl
  | cons c cs =>
    rw [splitAfterFirst_cons]
    have : pat.isPrefixOf (c :: cs) = true := by rw [← hl]; exact isPrefixOf_self_append _ _
    simp [this]

theorem hasSub_append_left {pat b : List Char} (a : List Char) (h : hasSub pat b = true) :
    hasSub pat (a ++ b) = true := by
  induction a with
  | nil => simpa using h
  | cons c a' ih => exact hasSub_cons_of c ih

theorem hasSub_drop {pat l : List Char} {k : Nat} (h : hasSub pat (l.drop k) = true) :
    hasSub pat l = true := by
  have := hasSub_append_left (l.take k) h
  rwa [List.take_append_drop] at this

theorem hasConcealMatch_cons (c : Char) (cs : List Char) :
    hasConcealMatch (c :: cs) =
      ((concealOpen.isPrefixOf (c :: cs) &&
        hasSub concealReset ((c :: cs).drop concealOpen.length)) || hasConcealMatch cs) := rfl

theorem hasConcealMatch_append_no_esc {a : List Char} (w : List Char) (ha : '\x1b' ∉ a) :
    hasConcealMatch (a ++ w) = hasConcealMatch w := by
  induction a with
  | nil => rfl
  | cons c a' ih =>
    have hc : c ≠ '\x1b' := fun h => ha (by simp [h])
    have ha' : '\x1b' ∉ a' := fun h => ha (by simp [h])
    rw [List.cons_append, hasConcealMatch_cons]
    have hpre : concealOpen.isPrefixOf (c :: (a' ++ w)) = false := by
      by_contra h
      exact hc (esc_of_concealOpen_isPre (by simpa using h))
    simp [hpre, ih ha']

theorem hasConcealMatch_of_no_reset : ∀ {l : List Char},
    hasSub concealReset l = false → hasConcealMatch l = false := by
  intro l
  induction l with
  | nil => intro _; rfl
  | cons c cs ih =>
    intro h
    rw [hasConcealMatch_cons]
    have h1 : hasSub concealReset ((c :: cs).drop concealOpen.length) = false := by
      by_contra hcontra
      have : hasSub concealReset ((c :: cs).drop concealOpen.length) = true := by
        revert hcontra; cases hasSub concealReset ((c :: cs).drop concealOpen.length) <;> simp
      rw [hasSub_drop this] at h
      cases h
    have h2 : hasConcealMatch cs = false := ih (hasSub_cons_down h)
    simp [h1, h2]

theorem concealOpen_isPre_elim {c : Char} {cs : List Char}
    (h : concealOpen.isPrefixOf (c :: cs) = true) :
    c = '\x1b' ∧ ∃ cs₃, cs = '[' :: '8' :: 'm' :: cs₃ := by
  cases cs with
  | nil => simp [concealOpen, List.isPrefixOf] at h
  | cons c1 cs1 =>
    cases cs1 with
    | nil => simp [concealOpen, List.isPrefixOf] at h
    | cons c2 cs2 =>
      cases cs2 with
      | nil => simp [concealOpen, List.isPrefixOf] at h
      | cons c3 cs3 =>
        simp only [concealOpen] at h
        simp [List.isPrefixOf] at h
        obtain ⟨h1, h2, h3, h4⟩ := h
        exact ⟨h1.symm, cs3, by rw [← h2, ← h3, ← h4]⟩

theorem sanitize_of_no_match_aux :
    ∀ (n : Nat) (l : List Char), l.length ≤ n → hasConcealMatch l = false →
      sanitize_ansi_concealed_payload l = l := by
  intro n
  induction n with
  | zero =>
    intro l hl _
    have : l = [] := List.length_eq_zero.mp (Nat.le_zero.mp hl)
    subst this
    rfl
  | succ n ih =>
    intro l hl h
    cases l with
    | nil => rfl
    | cons c cs =>
      have hlen : cs.length ≤ n := by simpa using hl
      rw [hasConcealMatch_cons] at h
      have hor := Bool.or_eq_false_iff.mp h
      have hcs : hasConcealMatch cs = false := hor.2
      rw [sanitize_cons]
      by_cases hpre : concealOpen.isPrefixOf (c :: cs)
      · have hno : hasSub concealReset ((c :: cs).drop concealOpen.length) = false := by
          have := hor.1
          simp [hpre] at this
          exact this
        have hnone : splitAfterFirst concealReset ((c :: cs).drop concealOpen.length) = none := by
          unfold hasSub at hno
          exact Option.not_isSome_iff_eq_none.mp (by simp [hno])
        rw [if_pos hpre, hnone]
        dsimp only
        rw [ih cs hlen hcs]
      · rw [if_neg hpre, ih cs hlen hcs]

theorem sanitize_of_no_match {l : List Char} (h : hasConcealMatch l = false) :
    sanitize_ansi_concealed_payload l = l :=
  sanitize_of_no_match_aux l.length l (Nat.le_refl _) h

theorem sanitize_pre_reflect_aux :
    ∀ (n : Nat) (l pat : List Char), l.length ≤ n → '*' ∉ pat →
      pat.isPrefixOf (sanitize_ansi_concealed_payload l) = true → pat.isPrefixOf l = true := by
  intro n
  induction n with
  | zero =>
    intro l pat hl _ h
    have : l = [] := List.length_eq_zero.mp (Nat.le_zero.mp hl)
    subst this
    exact h
  | succ n ih =>
    intro l pat hl hstar h
    cases l with
    | nil => exact h
    | cons c cs =>
      rw [sanitize_cons] at h
      have hlen : cs.length ≤ n := by simpa using hl
      by_cases hpre : concealOpen.isPrefixOf (c :: cs)
      · rw [if_pos hpre] at h
        cases hsp : splitAfterFirst concealReset ((c :: cs).drop concealOpen.length) with
        | some rest =>
          rw [hsp] at h
          dsimp only at h
          cases pat with
          | nil => simp [List.isPrefixOf]
          | cons p pat' =>
            exfalso
            have hmem : (p :: pat').isPrefixOf ('*' :: (injectionWarning.tail ++ sanitize_ansi_concealed_payload rest)) = true := by
              have hw : injectionWarning ++ sanitize_ansi_concealed_payload rest =
                  '*' :: (injectionWarning.tail ++ sanitize_ansi_concealed_payload rest) := by
                rw [show injectionWarning = '*' :: injectionWarning.tail from by decide]
                simp
              rwa [hw] at h
            simp [List.isPrefixOf] at hmem
            exact hstar (by simp [hmem.1])
        | none =>
          rw [hsp] at h
          dsimp only at h
          cases pat with
          | nil => simp [List.isPrefixOf]
          | cons p pat' =>
            simp only [List.isPrefixOf] at h ⊢
            have hp := Bool.and_eq_true_iff.mp h
            have hstar' : '*' ∉ pat' := fun hmem => hstar (by simp [hmem])
            exact Bool.and_eq_true_iff.mpr ⟨hp.1, ih cs pat' hlen hstar' hp.2⟩
      · rw [if_neg hpre] at h
        cases pat with
        | nil => simp [List.isPrefixOf]
        | cons p pat' =>
          simp only [List.isPrefixOf] at h ⊢
          have hp := Bool.and_eq_true_iff.mp h
          have hstar' : '*' ∉ pat' := fun hmem => hstar (by simp [hmem])
          exact Bool.and_eq_true_iff.mpr ⟨hp.1, ih cs pat' hlen hstar' hp.2⟩

theorem sanitize_clean_aux :
    ∀ (n : Nat) (l : List Char), l.length ≤ n →
      hasConcealMatch (sanitize_ansi_concealed_payload l) = false := by
  intro n
  induction n with
  | zero =>
    intro l hl
    have : l = [] := List.length_eq_zero.mp (Nat.le_zero.mp hl)
    subst this
    rfl
  | succ n ih =>
    intro l hl
    cases l with
    | nil => rfl
    | cons c cs =>
      have hlen : cs.length ≤ n := by simpa using hl
      rw [sanitize_cons]
      by_cases hpre : concealOpen.isPrefixOf (c :: cs)
      · cases hsp : splitAfterFirst concealReset ((c :: cs).drop concealOpen.length) with
        | some rest =>
          rw [if_pos hpre]
          dsimp only
          have hrest : rest.length ≤ n := by
            have h1 := splitAfterFirst_length_le hsp
            have h2 : ((c :: cs).drop concealOpen.length).length ≤ cs.length := by
              simp [concealOpen]
            omega
          rw [hasConcealMatch_append_no_esc _ (by decide)]
          exact ih rest hrest
        | none =>
          rw [if_pos hpre]
          dsimp only
          obtain ⟨hc, cs₃, hcs⟩ := concealOpen_isPre_elim hpre
          have hdrop : (c :: cs).drop concealOpen.length = cs₃ := by
            subst hc; rw [hcs]; rfl
          rw [hdrop] at hsp
          have hno₃ : hasSub concealReset cs₃ = false := by
            unfold hasSub
            simp [hsp]
          have hnocs : hasSub concealReset cs = false := by
            rw [hcs]
            rw [show hasSub concealReset ('[' :: '8' :: 'm' :: cs₃) =
                (splitAfterFirst concealReset ('[' :: '8' :: 'm' :: cs₃)).isSome from rfl]
            rw [splitAfterFirst_cons]
            have h1 : concealReset.isPrefixOf ('[' :: '8' :: 'm' :: cs₃) = false := by
              by_contra hx
              have := esc_of_concealReset_isPre (c := '[') (l := '8' :: 'm' :: cs₃) (by simpa using hx)
              simp at this
            simp only [h1, if_false]
            rw [splitAfterFirst_cons]
            have h2 : concealReset.isPrefixOf ('8' :: 'm' :: cs₃) = false := by
              by_contra hx
              have := esc_of_concealReset_isPre (c := '8') (l := 'm' :: cs₃) (by simpa using hx)
              simp at this
            simp only [h2, if_false]
            rw [splitAfterFirst_cons]
            have h3 : concealReset.isPrefixOf ('m' :: cs₃) = false := by
              by_contra hx
              have := esc_of_concealReset_isPre (c := 'm') (l := cs₃) (by simpa using hx)
              simp at this
            simp only [h3, if_false]
            unfold hasSub at hno₃
            simpa using hno₃
          have hnomatch : hasConcealMatch cs = false := hasConcealMatch_of_no_reset hnocs
          rw [sanitize_of_no_match hnomatch]
          rw [hasConcealMatch_cons]
          have hleft : hasSub concealReset ((c :: cs).drop concealOpen.length) = false := by
            rw [hdrop]; exact hno₃
          simp [hleft, hnomatch]
      · rw [if_neg hpre]
        rw [hasConcealMatch_cons]
        have hih := ih cs hlen
        have hleft : concealOpen.isPrefixOf (c :: sanitize_ansi_concealed_payload cs) = false := by
          by_contra hx
          have hx' : concealOpen.isPrefixOf (c :: sanitize_ansi_concealed_payload cs) = true := by
            revert hx; cases concealOpen.isPrefixOf (c :: sanitize_ansi_concealed_payload cs) <;> simp
          have hco : concealOpen = '\x1b' :: "[8m".toList := by decide
          rw [hco] at hx'
          rw [show ('\x1b' :: "[8m".toList).isPrefixOf (c :: sanitize_ansi_concealed_payload cs)
              = (('\x1b' == c) && "[8m".toList.isPrefixOf (sanitize_ansi_concealed_payload cs)) from rfl] at hx'
          have hand := Bool.and_eq_true_iff.mp hx'
          have hrefl := sanitize_pre_reflect_aux cs.length cs "[8m".toList (Nat.le_refl _)
            (by decide) hand.2
          apply hpre
          rw [hco]
          rw [show ('\x1b' :: "[8m".toList).isPrefixOf (c :: cs)
              = (('\x1b' == c) && "[8m".toList.isPrefixOf cs) from rfl]
          exact Bool.and_eq_true_iff.mpr ⟨hand.1, hrefl⟩
        simp [hleft, hih]

theorem sanitize_clean (l : List Char) :
    hasConcealMatch (sanitize_ansi_concealed_payload l) = false :=
  sanitize_clean_aux l.length l (Nat.le_refl _)

theorem sanitize_idem (l : List Char) :
    sanitize_ansi_concealed_payload (sanitize_ansi_concealed_payload l) =
      sanitize_ansi_concealed_payload l :=
  sanitize_of_no_match (sanitize_clean l)

theorem splitAfterFirst_decomp {pat : List Char} :
    ∀ {l r : List Char}, splitAfterFirst pat l = some r → ∃ a, l = a ++ pat ++ r := by
  intro l
  induction l with
  | nil =>
    intro r h
    rw [splitAfterFirst_nil] at h
    split at h
    · cases h
      rename_i hp
      have : pat = [] := by
        cases pat with
        | nil => rfl
        | cons p ps => simp [List.isPrefixOf] at hp
      exact ⟨[], by simp [this]⟩
    · cases h
  | cons c cs ih =>
    intro r h
    rw [splitAfterFirst_cons] at h
    split at h
    · cases h
      rename_i hp
      obtain ⟨t, ht⟩ := List.isPrefixOf_iff_prefix.mp hp
      refine ⟨[], ?_⟩
      rw [← ht, List.drop_left]
      simp
    · obtain ⟨a, ha⟩ := ih h
      exact ⟨c :: a, by simp [ha]⟩

theorem hasSub_decomp {pat l : List Char} (h : hasSub pat l = true) :
    ∃ a r, l = a ++ pat ++ r := by
  unfold hasSub at h
  cases hsp : splitAfterFirst pat l with
  | none => rw [hsp] at h; cases h
  | some r =>
    obtain ⟨a, ha⟩ := splitAfterFirst_decomp hsp
    exact ⟨a, r, ha⟩

theorem hasConcealMatch_block (a mid r : List Char) (hm : '\x1b' ∉ mid) :
    hasConcealMatch (a ++ (concealOpen ++ (mid ++ (concealReset ++ r)))) = true := by
  induction a with
  | nil =>
    simp only [List.nil_append]
    show hasConcealMatch ('\x1b' :: ("[8m".toList ++ (mid ++ (concealReset ++ r)))) = true
    have hpre : concealOpen.isPrefixOf ('\x1b' :: ("[8m".toList ++ (mid ++ (concealReset ++ r)))) = true := by
      have := isPrefixOf_self_append concealOpen (mid ++ (concealReset ++ r))
      simpa [concealOpen] using this
    have hdrop : ('\x1b' :: ("[8m".toList ++ (mid ++ (concealReset ++ r)))).drop concealOpen.length
        = mid ++ (concealReset ++ r) := by
      have : ('\x1b' :: ("[8m".toList ++ (mid ++ (concealReset ++ r)))) =
          concealOpen ++ (mid ++ (concealReset ++ r)) := by simp [concealOpen]
      rw [this, List.drop_left]
    have hsub : hasSub concealReset (mid ++ (concealReset ++ r)) = true := by
      unfold hasSub
      rw [splitAfterFirst_reset_append r hm]
      rfl
    rw [hasConcealMatch_cons, hpre, hdrop, hsub]
    simp
  | cons c a' ih =>
    rw [List.cons_append, hasConcealMatch_cons]
    simp [ih]

theorem hasConcealMatch_opener (a b : List Char) (h : hasSub concealReset b = true) :
    hasConcealMatch (a ++ (concealOpen ++ b)) = true := by
  induction a with
  | nil =>
    simp only [List.nil_append]
    show hasConcealMatch ('\x1b' :: ("[8m".toList ++ b)) = true
    have hpre : concealOpen.isPrefixOf ('\x1b' :: ("[8m".toList ++ b)) = true := by
      have := isPrefixOf_self_append concealOpen b
      simpa [concealOpen] using this
    have hdrop : ('\x1b' :: ("[8m".toList ++ b)).drop concealOpen.length = b := by
      have : ('\x1b' :: ("[8m".toList ++ b)) = concealOpen ++ b := by simp [concealOpen]
      rw [this, List.drop_left]
    rw [hasConcealMatch_cons, hpre, hdrop, h]
    simp
  | cons c a' ih =>
    rw [List.cons_append, hasConcealMatch_cons]
    simp [ih]

theorem sanitize_warning_of_match_aux :
    ∀ (n : Nat) (l : List Char), l.length ≤ n → hasConcealMatch l = true →
      hasSub injectionWarning (sanitize_ansi_concealed_payload l) = true := by
  intro n
  induction n with
  | zero =>
    intro l hl h
    have : l = [] := List.length_eq_zero.mp (Nat.le_zero.mp hl)
    subst this
    cases h
  | succ n ih =>
    intro l hl h
    cases l with
    | nil => cases h
    | cons c cs =>
      have hlen : cs.length ≤ n := by simpa using hl
      rw [sanitize_cons]
      by_cases hpre : concealOpen.isPrefixOf (c :: cs)
      · cases hsp : splitAfterFirst concealReset ((c :: cs).drop concealOpen.length) with
        | some rest =>
          rw [if_pos hpre]
          dsimp only
          exact hasSub_self_append injectionWarning _
        | none =>
          rw [if_pos hpre]
          dsimp only
          have hno : hasSub concealReset ((c :: cs).drop concealOpen.length) = false := by
            unfold hasSub
            simp [hsp]
          rw [hasConcealMatch_cons] at h
          have hcs : hasConcealMatch cs = true := by
            cases hor : hasConcealMatch cs with
            | true => rfl
            | false =>
              rw [hor, hno] at h
              simp at h
          exact hasSub_cons_of c (ih cs hlen hcs)
      · rw [if_neg hpre]
        rw [hasConcealMatch_cons] at h
        have hpre' : concealOpen.isPrefixOf (c :: cs) = false := by
          revert hpre; cases concealOpen.isPrefixOf (c :: cs) <;> simp
        rw [hpre'] at h
        simp at h
        exact hasSub_cons_of c (ih cs hlen h)

theorem sanitize_warning_of_match {l : List Char} (h : hasConcealMatch l = true) :
    hasSub injectionWarning (sanitize_ansi_concealed_payload l) = true :=
  sanitize_warning_of_match_aux l.length l (Nat.le_refl _) h

theorem handle_output_flatten (raw yesRaw : List Char) (st : ShellState) :
    (_handle_normal_execution raw yesRaw st).1.flatten = assembledOutput raw yesRaw := by
  unfold _handle_normal_execution assembledOutput
  by_cases hc : hasConfirmation (lastLineOf raw)
  · rw [if_pos hc, if_pos hc]
    by_cases hr : raw = [] <;> by_cases hy : yesRaw = [] <;> simp [hr, hy]
  · rw [if_neg hc, if_neg hc]
    by_cases hr : raw = [] <;> simp [hr]

theorem getLast?_cons_of_ne {α : Type} {l : List α} (a : α) (h : l ≠ []) :
    (a :: l).getLast? = l.getLast? := by
  cases l with
  | nil => exact absurd rfl h
  | cons b t => rw [List.getLast?_cons_cons]

theorem getLast?_cons_of_getLast? {α : Type} {l : List α} {a x : α}
    (h : l.getLast? = some x) : (a :: l).getLast? = some x := by
  cases l with
  | nil => simp at h
  | cons b t =>
    rw [List.getLast?_cons_cons]
    exact h

theorem findYesNo_append_last {suffix tok : List Char}
    (hbase : ∀ pOK : Bool, (findYesNo pOK suffix).getLast? = some tok) :
    ∀ (l : List Char) (pOK : Bool),
      (findYesNo pOK (l ++ suffix)).getLast? = some tok := by
  intro l
  induction l with
  | nil => intro pOK; simpa using hbase pOK
  | cons c cs ih =>
    intro pOK
    rw [List.cons_append, findYesNo]
    have hrest := ih (!(isWordChar c))
    split
    · exact getLast?_cons_of_getLast? hrest
    · split
      · exact getLast?_cons_of_getLast? hrest
      · exact hrest

/-! ## Claim C1 -/

/-- C1, counterexample.  The claim states that for any input containing
`ESC[8m secret ESC[0m` the sanitized output does not contain `secret`.
The input `secret ESC[8m secret ESC[0m` contains the concealed block, the
sanitized output contains the warning string, yet it still contains the
literal `secret` (the occurrence outside the concealed span survives), so
the claim as universally stated is false. -/
theorem C1_counterexample :
    hasSub "\x1b[8m secret \x1b[0m".toList "secret\x1b[8m secret \x1b[0m".toList = true
    ∧ hasSub injectionWarning
        (sanitize_ansi_concealed_payload "secret\x1b[8m secret \x1b[0m".toList) = true
    ∧ hasSub "secret".toList
        (sanitize_ansi_concealed_payload "secret\x1b[8m secret \x1b[0m".toList) = true :=
  ⟨by decide, by decide, by decide⟩

/-- C1 (amended).  Every substring from a conceal opener to the next
attribute-reset sequence is replaced by the fixed warning string:
(1) any input containing `ESC[8m secret ESC[0m` sanitizes to an output
containing the warning; (2) when the concealed block is the only
escape-bearing text, the block is replaced exactly, so the concealed
occurrence of `secret` never survives — in particular (3) sanitizing the
bare block yields no `secret` at all; and (4) for every command accepted
by the forbidden-command filter, the transcript returned by `execute_cmd`
is the dirb/msfconsole post-processing of the sanitized assembled output,
i.e. the sanitizer runs on every such transcript. -/
theorem C1_concealed_payload_sanitization :
    (∀ s : List Char, hasSub "\x1b[8m secret \x1b[0m".toList s = true →
        hasSub injectionWarning (sanitize_ansi_concealed_payload s) = true)
    ∧ (∀ a b : List Char, '\x1b' ∉ a → '\x1b' ∉ b →
        sanitize_ansi_concealed_payload (a ++ ("\x1b[8m secret \x1b[0m".toList ++ b)) =
          a ++ (injectionWarning ++ b))
    ∧ hasSub "secret".toList
        (sanitize_ansi_concealed_payload "\x1b[8m secret \x1b[0m".toList) = false
    ∧ (∀ (cmd raw yesRaw : List Char) (st : ShellState),
        _check_forbidden_commands cmd = none →
        (execute_cmd cmd raw yesRaw st).1 =
          dirbMsfPostprocess cmd
            (sanitize_ansi_concealed_payload (assembledOutput raw yesRaw))) := by
  have hblock : "\x1b[8m secret \x1b[0m".toList =
      concealOpen ++ (" secret ".toList ++ concealReset) := by decide
  refine ⟨?_, ?_, by decide, ?_⟩
  · intro s h
    obtain ⟨a, r, hs⟩ := hasSub_decomp h
    have hs' : s = a ++ (concealOpen ++ (" secret ".toList ++ (concealReset ++ r))) := by
      rw [hs, hblock]
      simp
    have hmatch : hasConcealMatch s = true := by
      rw [hs']
      exact hasConcealMatch_block a " secret ".toList r (by decide)
    exact sanitize_warning_of_match hmatch
  · intro a b ha hb
    have hs' : a ++ ("\x1b[8m secret \x1b[0m".toList ++ b) =
        a ++ (concealOpen ++ (" secret ".toList ++ (concealReset ++ b))) := by
      rw [hblock]
      simp
    rw [hs', sanitize_no_esc_append _ ha, sanitize_block b (by decide), sanitize_no_esc hb]
  · intro cmd raw yesRaw st hnone
    unfold execute_cmd
    rw [hnone]
    rcases hp : _handle_normal_execution raw yesRaw (shellSend st (cmd ++ ['\n'])) with ⟨o, st2⟩
    have ho : o.flatten = assembledOutput raw yesRaw := by
      have := handle_output_flatten raw yesRaw (shellSend st (cmd ++ ['\n']))
      rw [hp] at this
      exact this
    dsimp only
    rw [hp]
    dsimp only
    rw [ho]

/-- C1 witness: the amended theorem applied at concrete inputs. -/
theorem C1_concealed_payload_sanitization_witness :
    hasSub injectionWarning
      (sanitize_ansi_concealed_payload "xx\x1b[8m secret \x1b[0myy".toList) = true
    ∧ sanitize_ansi_concealed_payload
        ("A ".toList ++ ("\x1b[8m secret \x1b[0m".toList ++ " B".toList)) =
        "A ".toList ++ (injectionWarning ++ " B".toList)
    ∧ (execute_cmd "ls -la".toList "file1\nfile2$ ".toList [] ⟨[]⟩).1 =
        dirbMsfPostprocess "ls -la".toList
          (sanitize_ansi_concealed_payload (assembledOutput "file1\nfile2$ ".toList [])) :=
  ⟨C1_concealed_payload_sanitization.1 _ (by decide),
   C1_concealed_payload_sanitization.2.1 _ _ (by decide) (by decide),
   C1_concealed_payload_sanitization.2.2.2 _ _ _ _ (by decide)⟩

/-! ## Claim C2 -/

/-- C2: a command with a whitespace-delimited token on the denylist is
refused with the fixed refusal string and nothing is sent to the channel
(the channel state is returned untouched). -/
theorem C2_forbidden_command_refused (cmd raw yesRaw : List Char) (st : ShellState)
    (htok : ∃ t ∈ pySplitWs cmd, t ∈ FORBIDDEN_COMMANDS) :
    execute_cmd cmd raw yesRaw st = (forbiddenRefusal, st) := by
  have hany : (pySplitWs cmd).any (fun t => FORBIDDEN_COMMANDS.contains t) = true := by
    obtain ⟨t, ht, hf⟩ := htok
    refine List.any_eq_true.mpr ⟨t, ht, ?_⟩
    simpa using hf
  have hchk : _check_forbidden_commands cmd = some forbiddenRefusal := by
    unfold _check_forbidden_commands
    rw [if_pos hany]
  unfold execute_cmd
  rw [hchk]

/-- C2 witness: the first token of `apt update` is on the denylist and the
command is refused without touching the channel. -/
theorem C2_forbidden_command_refused_witness :
    (∃ t ∈ pySplitWs "apt update".toList, t ∈ FORBIDDEN_COMMANDS)
    ∧ execute_cmd "apt update".toList "ignored".toList [] ⟨["earlier".toList]⟩ =
        (forbiddenRefusal, ⟨["earlier".toList]⟩) :=
  ⟨by decide, C2_forbidden_command_refused _ _ _ _ (by decide)⟩

/-! ## Claim C7 -/

/-- C7: concealed-payload sanitization is idempotent, and it never leaves
an opening-conceal sequence unreplaced when a matching reset sequence
occurs later: (2) the sanitized output never contains an opener followed
by a reset, (3) concretely, wherever an opener remains in the output, no
reset follows it, and (4) whenever the input has an opener with a reset
somewhere after it, a replacement did happen (the warning appears in the
output). -/
theorem C7_sanitize_idempotent :
    ∀ s : List Char,
      sanitize_ansi_concealed_payload (sanitize_ansi_concealed_payload s) =
        sanitize_ansi_concealed_payload s
      ∧ hasConcealMatch (sanitize_ansi_concealed_payload s) = false
      ∧ (∀ a b : List Char,
          sanitize_ansi_concealed_payload s = a ++ (concealOpen ++ b) →
          hasSub concealReset b = false)
      ∧ (∀ a b : List Char, s = a ++ (concealOpen ++ b) →
          hasSub concealReset b = true →
          hasSub injectionWarning (sanitize_ansi_concealed_payload s) = true) := by
  intro s
  refine ⟨sanitize_idem s, sanitize_clean s, ?_, ?_⟩
  · intro a b hdec
    cases hr : hasSub concealReset b with
    | false => rfl
    | true =>
      exfalso
      have := hasConcealMatch_opener a b hr
      rw [← hdec, sanitize_clean s] at this
      cases this
  · intro a b hdec hr
    have hmatch : hasConcealMatch s = true := by
      rw [hdec]
      exact hasConcealMatch_opener a b hr
    exact sanitize_warning_of_match hmatch

/-- C7 witness: the structural conjuncts of the idempotence theorem
applied at a concrete input containing an unreplaced opener. -/
theorem C7_sanitize_idempotent_witness :
    hasSub concealReset "tail with no reset".toList = false
    ∧ hasSub injectionWarning
        (sanitize_ansi_concealed_payload
          ("pre".toList ++ (concealOpen ++ "hidden\x1b[0mpost".toList))) = true :=
  ⟨(C7_sanitize_idempotent "\x1b[8mtail with no reset".toList).2.2.1 []
     "tail with no reset".toList (by decide),
   (C7_sanitize_idempotent ("pre".toList ++ (concealOpen ++ "hidden\x1b[0mpost".toList))).2.2.2
     "pre".toList "hidden\x1b[0mpost".toList rfl (by decide)⟩

theorem toHexPad_length (w v : Nat) : (toHexPad w v).length = w := by
  induction w generalizing v with
  | zero => rfl
  | succ w ih => simp [toHexPad, ih]

theorem md5HexModel_length (l : List Char) : (md5HexModel l).length = 32 :=
  toHexPad_length 32 _

theorem decReprAux_length_le :
    ∀ (f n k : Nat), n < 10 ^ k → (decReprAux f n).length ≤ k := by
  intro f
  induction f with
  | zero => intro n k _; simp [decReprAux]
  | succ f ih =>
    intro n k hn
    rw [decReprAux]
    by_cases h0 : n = 0
    · simp [h0]
    · rw [if_neg h0]
      cases k with
      | zero =>
        exfalso
        exact h0 (by omega)
      | succ k =>
        have hdiv : n / 10 < 10 ^ k := by
          rw [Nat.div_lt_iff_lt_mul (by norm_num)]
          calc n < 10 ^ (k + 1) := hn
          _ = 10 ^ k * 10 := by ring
        have := ih (n / 10) k hdiv
        simp only [List.length_append, List.length_cons, List.length_nil]
        omega

theorem decRepr_length_le_ten {seq : Nat} (h : seq < 10 ^ 10) :
    (decRepr seq).length ≤ 10 := by
  unfold decRepr
  by_cases h0 : seq = 0
  · simp [h0]
  · rw [if_neg h0]
    exact decReprAux_length_le _ _ _ h

/-! ## Claim C6 -/

/-- C6: the parsed success flag is determined by the last standalone
`yes`/`no` token (case-insensitive) of the response with the
`<think>...</think>` blocks removed, defaulting to failure when no such
token exists: (1) the spec scenario `<think>maybe</think> no` parses to
`false`; (2) for every response the flag is `true` exactly when the last
token of the stripped, lowercased text is `yes` (so the absence of any
token gives `false`); (3), (4) the token scan always reports the trailing
` no` / ` yes` as its last token, whatever precedes it. -/
theorem C6_success_flag_last_token :
    successFlagOrDefault "<think>maybe</think> no".toList = false
    ∧ (∀ r : List Char,
        successFlagOrDefault r = true ↔
          (findYesNo true (toLowerL (stripThink r))).getLast? = some "yes".toList)
    ∧ (∀ (pOK : Bool) (l : List Char),
        (findYesNo pOK (l ++ " no".toList)).getLast? = some "no".toList)
    ∧ (∀ (pOK : Bool) (l : List Char),
        (findYesNo pOK (l ++ " yes".toList)).getLast? = some "yes".toList) := by
  refine ⟨by decide, ?_, ?_, ?_⟩
  · intro r
    unfold successFlagOrDefault _parse_success_flag
    by_cases hr : r = []
    · subst hr
      simp [stripThink, stripThinkFuel, findYesNo, toLowerL]
    · rw [if_neg hr]
      cases hms : (findYesNo true (toLowerL (stripThink r))).getLast? with
      | none => simp [hms]
      | some t =>
        simp only [hms, Option.getD_some]
        constructor
        · intro ht
          have : t = "yes".toList := by
            have := of_decide_eq_true (by simpa using ht)
            exact this
          rw [this]
        · intro ht
          cases ht' : t == "yes".toList with
          | true => rfl
          | false =>
            exfalso
            cases ht
            simp at ht'
  · intro pOK l
    exact findYesNo_append_last (fun p => by cases p <;> decide) l pOK
  · intro pOK l
    exact findYesNo_append_last (fun p => by cases p <;> decide) l pOK

/-! ## Claim C8 -/

/-- C8, counterexample.  The claim asserts a bound of 32 characters for
every base handle and every task sequence number, but for a sequence
number with eleven decimal digits the hash branch produces
20 + 1 + 12 = 33 characters. -/
theorem C8_counterexample :
    32 < (deriveTaskConvId (List.replicate 32 'a') 10000000000).length := by decide

/-- C8 (amended): for every base handle and every task sequence number
below `10^10` (suffix at most 11 characters) the derived conversation id
has length at most 32, and whenever the plain concatenation
`base + '_' + 't'+seq` would exceed 32 characters the id is the first 20
characters of the content hash of the base followed by `'_'` and the task
suffix; in particular a 32-character base with suffix `t0` yields
`hash20chars ++ "_t0"`, of length 23. -/
theorem C8_derived_conv_id :
    (∀ (base_id : List Char) (seq : Nat), seq < 10 ^ 10 →
      (deriveTaskConvId base_id seq).length ≤ 32
      ∧ (base_id.length + ('t' :: decRepr seq).length + 1 > 32 →
          deriveTaskConvId base_id seq =
            (md5HexModel base_id).take 20 ++ '_' :: 't' :: decRepr seq))
    ∧ deriveTaskConvId (List.replicate 32 'a') 0 =
        (md5HexModel (List.replicate 32 'a')).take 20 ++ "_t0".toList
    ∧ (deriveTaskConvId (List.replicate 32 'a') 0).length = 23 := by
  refine ⟨?_, by decide, by decide⟩
  intro base_id seq hseq
  have hsuf : (decRepr seq).length ≤ 10 := decRepr_length_le_ten hseq
  constructor
  · unfold deriveTaskConvId
    by_cases hg : base_id.length + ('t' :: decRepr seq).length + 1 > 32
    · rw [if_pos hg]
      have htake : ((md5HexModel base_id).take 20).length = 20 := by
        rw [List.length_take, md5HexModel_length]
        decide
      simp only [List.length_append, List.length_cons, htake]
      simp only [List.length_cons] at hsuf ⊢
      omega
    · rw [if_neg hg]
      simp only [List.length_cons] at hg ⊢
      simp only [List.length_append, List.length_cons]
      omega
  · intro hg
    unfold deriveTaskConvId
    rw [if_pos hg]

/-! ## Dictionary lemmas -/

theorem dictGet?_dictInsert {κ ν : Type} [DecidableEq κ]
    (m : List (κ × ν)) (k q : κ) (v : ν) :
    dictGet? (dictInsert m k v) q = if q = k then some v else dictGet? m q := by
  induction m with
  | nil =>
    by_cases hq : q = k
    · subst hq; simp [dictInsert, dictGet?]
    · have hq' : ¬ k = q := fun h => hq h.symm
      simp [dictInsert, dictGet?, hq, hq']
  | cons e m' ih =>
    obtain ⟨k₁, v₁⟩ := e
    by_cases h1 : k₁ = k
    · subst h1
      by_cases hq : q = k₁
      · subst hq
        simp [dictInsert, dictGet?]
      · have hq' : ¬ k₁ = q := fun h => hq h.symm
        simp [dictInsert, dictGet?, hq, hq']
    · by_cases hq1 : k₁ = q
      · subst hq1
        have hq : ¬ k₁ = k := h1
        have hq2 : ¬ k₁ = k := h1
        simp [dictInsert, dictGet?, h1, ih, fun h : k₁ = k => h1 h]
      · simp [dictInsert, dictGet?, h1, hq1, ih]

theorem dictInsert_cons {κ ν : Type} [DecidableEq κ]
    (k₁ : κ) (v₁ : ν) (m : List (κ × ν)) (k : κ) (v : ν) :
    dictInsert ((k₁, v₁) :: m) k v =
      if k₁ = k then (k₁, v) :: m else (k₁, v₁) :: dictInsert m k v := rfl

theorem mem_dictInsert {κ ν : Type} [DecidableEq κ]
    {k : κ} {v : ν} {e : κ × ν} :
    ∀ {m : List (κ × ν)}, e ∈ dictInsert m k v → e = (k, v) ∨ e ∈ m := by
  intro m
  induction m with
  | nil => intro h; simpa [dictInsert] using h
  | cons e' m' ih =>
    intro h
    obtain ⟨k₁, v₁⟩ := e'
    rw [dictInsert_cons] at h
    by_cases h1 : k₁ = k
    · rw [if_pos h1] at h
      rcases List.mem_cons.mp h with h2 | h2
      · subst h1; exact Or.inl h2
      · exact Or.inr (List.mem_cons_of_mem _ h2)
    · rw [if_neg h1] at h
      rcases List.mem_cons.mp h with h2 | h2
      · subst h2; exact Or.inr (List.mem_cons_self _ _)
      · rcases ih h2 with h' | h'
        · exact Or.inl h'
        · exact Or.inr (List.mem_cons_of_mem _ h')

theorem mem_of_dictGet? {κ ν : Type} [DecidableEq κ]
    {k : κ} {v : ν} :
    ∀ {m : List (κ × ν)}, dictGet? m k = some v → (k, v) ∈ m := by
  intro m
  induction m with
  | nil => intro h; simp [dictGet?] at h
  | cons e m' ih =>
    intro h
    obtain ⟨k₁, v₁⟩ := e
    by_cases h1 : k₁ = k
    · subst h1
      rw [dictGet?, if_pos rfl] at h
      cases h
      exact List.mem_cons_self _ _
    · rw [dictGet?, if_neg h1] at h
      exact List.mem_cons_of_mem _ (ih h)

theorem dictInsert_keys_sub {κ ν : Type} [DecidableEq κ]
    {m : List (κ × ν)} {k q : κ} {v : ν}
    (h : q ∈ (dictInsert m k v).map Prod.fst) : q = k ∨ q ∈ m.map Prod.fst := by
  simp only [List.mem_map] at h
  obtain ⟨e, he, hq⟩ := h
  rcases mem_dictInsert he with h' | h'
  · subst h'
    exact Or.inl hq.symm
  · exact Or.inr (List.mem_map.mpr ⟨e, h', hq⟩)

theorem dictInsert_nodupKeys {κ ν : Type} [DecidableEq κ]
    {k : κ} {v : ν} :
    ∀ {m : List (κ × ν)},
      (m.map Prod.fst).Nodup → ((dictInsert m k v).map Prod.fst).Nodup := by
  intro m
  induction m with
  | nil => intro _; simp [dictInsert]
  | cons e' m' ih =>
    intro h
    obtain ⟨k₁, v₁⟩ := e'
    by_cases h1 : k₁ = k
    · subst h1
      simpa [dictInsert] using h
    · simp only [List.map_cons, List.nodup_cons] at h
      have hnotin : k₁ ∉ (dictInsert m' k v).map Prod.fst := by
        intro hmem
        rcases dictInsert_keys_sub hmem with h' | h'
        · exact h1 h'
        · exact h.1 h'
      simp only [dictInsert, if_neg h1, List.map_cons, List.nodup_cons]
      exact ⟨hnotin, ih h.2⟩

theorem dictGet?_of_mem_nodup {κ ν : Type} [DecidableEq κ]
    {k : κ} {v : ν} :
    ∀ {m : List (κ × ν)},
      (m.map Prod.fst).Nodup → (k, v) ∈ m → dictGet? m k = some v := by
  intro m
  induction m with
  | nil => intro _ h; simp at h
  | cons e m' ih =>
    intro hnd h
    obtain ⟨k₁, v₁⟩ := e
    simp only [List.map_cons, List.nodup_cons] at hnd
    rcases List.mem_cons.mp h with h' | h'
    · cases h'
      rw [dictGet?, if_pos rfl]
    · have hk : k₁ ≠ k := by
        intro he
        subst he
        exact hnd.1 (List.mem_map.mpr ⟨(k₁, v), h', rfl⟩)
      rw [dictGet?, if_neg hk]
      exact ih hnd.2 h'

/-! ## completedMap lemmas -/

theorem completedMapLoop_nodupKeys :
    ∀ (old : List Task) (m : List (List Char × Task)),
      (m.map Prod.fst).Nodup → ((completedMapLoop m old).map Prod.fst).Nodup := by
  intro old
  induction old with
  | nil => intro m h; exact h
  | cons t rest ih =>
    intro m h
    rw [completedMapLoop]
    by_cases hc : t.is_finished && t.is_success
    · rw [if_pos hc]
      exact ih _ (dictInsert_nodupKeys h)
    · rw [if_neg hc]
      exact ih _ h

theorem completedMap_nodupKeys (old : List Task) :
    ((completedMap old).map Prod.fst).Nodup :=
  completedMapLoop_nodupKeys old [] (by simp)

theorem mem_completedMapLoop {e : List Char × Task} :
    ∀ (old : List Task) (m : List (List Char × Task)),
      e ∈ completedMapLoop m old →
      e ∈ m ∨ (e.1 = e.2.instruction ∧ e.2.is_finished = true ∧ e.2.is_success = true) := by
  intro old
  induction old with
  | nil => intro m h; exact Or.inl h
  | cons t rest ih =>
    intro m h
    rw [completedMapLoop] at h
    by_cases hc : t.is_finished && t.is_success
    · rw [if_pos hc] at h
      rcases ih _ h with h' | h'
      · rcases mem_dictInsert h' with h'' | h''
        · subst h''
          have := Bool.and_eq_true_iff.mp hc
          exact Or.inr ⟨rfl, this.1, this.2⟩
        · exact Or.inl h''
      · exact Or.inr h'
    · rw [if_neg hc] at h
      exact ih _ h

theorem mem_completedMap {e : List Char × Task} (old : List Task)
    (h : e ∈ completedMap old) :
    e.1 = e.2.instruction ∧ e.2.is_finished = true ∧ e.2.is_success = true := by
  rcases mem_completedMapLoop old [] h with h' | h'
  · simp at h'
  · exact h'

theorem dictGet?_completedMapLoop (instr : List Char) :
    ∀ (old : List Task) (m : List (List Char × Task)),
      dictGet? (completedMapLoop m old) instr =
        ((old.filter (finSuccWith instr)).getLast?).elim (dictGet? m instr) some := by
  intro old
  induction old with
  | nil => intro m; simp [completedMapLoop]
  | cons t rest ih =>
    intro m
    rw [completedMapLoop, ih]
    by_cases hfs : t.is_finished && t.is_success
    · by_cases hins : t.instruction = instr
      · have hfsw : finSuccWith instr t = true := by
          have := Bool.and_eq_true_iff.mp hfs
          simp [finSuccWith, this.1, this.2, hins]
        rw [if_pos hfs]
        rw [List.filter_cons_of_pos hfsw]
        have hget : dictGet? (dictInsert m t.instruction t) instr = some t := by
          rw [dictGet?_dictInsert, if_pos hins.symm]
        cases hlast : (rest.filter (finSuccWith instr)).getLast? with
        | none =>
          have hnil : rest.filter (finSuccWith instr) = [] := by
            cases hx : rest.filter (finSuccWith instr) with
            | nil => rfl
            | cons a l =>
              rw [hx] at hlast
              rw [List.getLast?_cons] at hlast
              cases hlast
          rw [hnil]
          simp [hget]
        | some u =>
          have hne : rest.filter (finSuccWith instr) ≠ [] := by
            intro hx
            rw [hx] at hlast
            cases hlast
          rw [getLast?_cons_of_ne t hne]
          simp [hlast]
      · have hfsw : finSuccWith instr t = false := by
          simp [finSuccWith, hins]
        rw [if_pos hfs, List.filter_cons_of_neg (by simp [hfsw])]
        have hget : dictGet? (dictInsert m t.instruction t) instr = dictGet? m instr := by
          rw [dictGet?_dictInsert, if_neg (fun h => hins h.symm)]
        rw [hget]
    · have hfsw : finSuccWith instr t = false := by
        unfold finSuccWith
        revert hfs
        cases t.is_finished <;> cases t.is_success <;> simp
      rw [if_neg hfs, List.filter_cons_of_neg (by simp [hfsw])]

theorem dictGet?_completedMap (old : List Task) (instr : List Char) :
    dictGet? (completedMap old) instr = lastFinSucc old instr := by
  rw [completedMap, dictGet?_completedMapLoop, lastFinSucc]
  cases (old.filter (finSuccWith instr)).getLast? <;> simp [dictGet?]

/-! ## Merge-phase lemmas -/

theorem getKey_some {α : Type} (a : α) (k : String) : getKey (some a) k = .ok a := rfl

theorem mergeWfSpec_parts {s : TaskSpec} (h : mergeWfSpec s = true) :
    s.action.isSome = true ∧ s.instruction.isSome = true ∧
      s.dependent_task_ids.isSome = true := by
  simp only [mergeWfSpec, Bool.and_eq_true] at h
  exact ⟨h.1.1, h.1.2, h.2⟩

theorem specsHaveInstruction_ok {specs : List TaskSpec}
    (h : ∀ s ∈ specs, s.instruction.isSome = true) (instr : List Char) :
    specsHaveInstruction specs instr = .ok (specsAnyInstruction specs instr) := by
  induction specs with
  | nil => rfl
  | cons s rest ih =>
    obtain ⟨i, hi⟩ := Option.isSome_iff_exists.mp (h s (List.mem_cons_self _ _))
    rw [specsHaveInstruction, hi]
    dsimp only
    by_cases hins : i = instr
    · subst hins
      rw [if_pos rfl]
      simp [specsAnyInstruction, hi]
    · rw [if_neg hins, ih (fun s' hs' => h s' (List.mem_cons_of_mem _ hs'))]
      simp [specsAnyInstruction, hi, hins]

theorem preservedLoop_ok {specs : List TaskSpec}
    (h : ∀ s ∈ specs, s.instruction.isSome = true) :
    ∀ (cl : List (List Char × Task)) (n : Nat),
      preservedLoop specs n cl = .ok (preservedPure specs n cl) := by
  intro cl
  induction cl with
  | nil => intro n; rfl
  | cons kv rest ih =>
    intro n
    obtain ⟨instr, ct⟩ := kv
    rw [preservedLoop, specsHaveInstruction_ok h instr]
    dsimp only
    simp only [preservedPure]
    by_cases hf : specsAnyInstruction specs instr = true
    · rw [if_pos hf, if_pos hf, ih n]
    · rw [if_neg hf, if_neg hf, ih (n + 1)]

theorem mem_preservedPure {specs : List TaskSpec} {m : Task} :
    ∀ {cl : List (List Char × Task)} {n : Nat}, m ∈ preservedPure specs n cl →
      ∃ kv, kv ∈ cl ∧ specsAnyInstruction specs kv.1 = false ∧
        ∃ n', m = { kv.2 with sequence := n', dependencies := [] } := by
  intro cl
  induction cl with
  | nil => intro n h; simp [preservedPure] at h
  | cons kv rest ih =>
    intro n h
    obtain ⟨instr, ct⟩ := kv
    rw [preservedPure] at h
    by_cases hf : specsAnyInstruction specs instr = true
    · rw [if_pos hf] at h
      obtain ⟨kv', h1, h2, h3⟩ := ih h
      exact ⟨kv', List.mem_cons_of_mem _ h1, h2, h3⟩
    · rw [if_neg hf] at h
      rcases List.mem_cons.mp h with h2 | h2
      · refine ⟨(instr, ct), List.mem_cons_self _ _, ?_, n, h2⟩
        revert hf
        cases specsAnyInstruction specs instr <;> simp
      · obtain ⟨kv', h1', h2', h3'⟩ := ih h2
        exact ⟨kv', List.mem_cons_of_mem _ h1', h2', h3'⟩

theorem preservedPure_mem_intro {specs : List TaskSpec} {kv : List Char × Task} :
    ∀ {cl : List (List Char × Task)}, kv ∈ cl →
      specsAnyInstruction specs kv.1 = false → ∀ n : Nat,
      ∃ m, m ∈ preservedPure specs n cl ∧
        ∃ n', m = { kv.2 with sequence := n', dependencies := [] } := by
  intro cl
  induction cl with
  | nil => intro h; simp at h
  | cons kv' rest ih =>
    intro hmem hany n
    obtain ⟨instr, ct⟩ := kv'
    rw [preservedPure]
    rcases List.mem_cons.mp hmem with h2 | h2
    · subst h2
      rw [if_neg (by simp [hany])]
      exact ⟨_, List.mem_cons_self _ _, n, rfl⟩
    · by_cases hf : specsAnyInstruction specs instr = true
      · rw [if_pos hf]
        exact ih h2 hany n
      · rw [if_neg hf]
        obtain ⟨m, hm, hn'⟩ := ih h2 hany (n + 1)
        exact ⟨m, List.mem_cons_of_mem _ hm, hn'⟩

theorem matchUpd_matchUpd (idMap : List (Option (List Char) × Nat))
    (seq seq' : Nat) (s s' : TaskSpec) (t : Task) :
    matchUpd idMap seq s (matchUpd idMap seq' s' t) = matchUpd idMap seq s t := rfl

theorem mergeLoop_ok {plan_id : List Char} {idMap : List (Option (List Char) × Nat)} :
    ∀ {rest : List TaskSpec}, (∀ s ∈ rest, mergeWfSpec s = true) →
      ∀ (store : List (List Char × Task)) (seq : Nat),
      mergeLoop plan_id idMap store seq rest =
        .ok (mergeLoopPure plan_id idMap store seq rest) := by
  intro rest
  induction rest with
  | nil => intro _ store seq; rfl
  | cons s rest ih =>
    intro h store seq
    obtain ⟨hact, hins, hdep⟩ := mergeWfSpec_parts (h s (List.mem_cons_self _ _))
    obtain ⟨i, hi⟩ := Option.isSome_iff_exists.mp hins
    obtain ⟨a, ha⟩ := Option.isSome_iff_exists.mp hact
    obtain ⟨d, hd⟩ := Option.isSome_iff_exists.mp hdep
    have h' := fun s' hs' => h s' (List.mem_cons_of_mem _ hs')
    have hsi : specInstr s = i := by simp [specInstr, hi]
    rw [mergeLoop, hi, getKey_some]
    dsimp only
    cases hget : dictGet? store i with
    | some ex =>
      rw [hd, getKey_some]
      dsimp only
      rw [ih h']
      dsimp only
      simp only [mergeLoopPure, hsi, hget, matchUpd, hd, Option.getD_some]
    | none =>
      rw [ha, getKey_some]
      dsimp only
      rw [hd, getKey_some]
      dsimp only
      rw [ih h']
      dsimp only
      simp only [mergeLoopPure, hsi, hget, freshTask, hd, ha, Option.getD_some]

theorem lastMatchSpec_get? :
    ∀ {specs : List TaskSpec} {instr : List Char} {j : Nat} {s' : TaskSpec},
      lastMatchSpec specs instr = some (j, s') →
      specs.get? j = some s' ∧ specInstr s' = instr := by
  intro specs
  induction specs with
  | nil => intro instr j s' h; simp [lastMatchSpec] at h
  | cons s rest ih =>
    intro instr j s' h
    rw [lastMatchSpec] at h
    cases hlm : lastMatchSpec rest instr with
    | some p =>
      rw [hlm] at h
      dsimp only at h
      obtain ⟨j₀, s₀⟩ := p
      injection h with h'
      have hj : j = j₀ + 1 := by
        have := congrArg Prod.fst h'
        simpa using this.symm
      have hs : s' = s₀ := by
        have := congrArg Prod.snd h'
        simpa using this.symm
      subst hj
      subst hs
      obtain ⟨hg, hi⟩ := ih hlm
      exact ⟨by simpa using hg, hi⟩
    | none =>
      rw [hlm] at h
      dsimp only at h
      by_cases hm : specInstr s = instr
      · rw [if_pos hm] at h
        injection h with h'
        have hj : j = 0 := by
          have := congrArg Prod.fst h'
          simpa using this.symm
        have hs : s' = s := by
          have := congrArg Prod.snd h'
          simpa using this.symm
        subst hj
        subst hs
        exact ⟨rfl, hm⟩
      · rw [if_neg hm] at h
        cases h

theorem lastMatchSpec_last :
    ∀ {specs : List TaskSpec} {instr : List Char} {k : Nat} {s : TaskSpec},
      specs.get? k = some s → specInstr s = instr →
      ∃ j s', lastMatchSpec specs instr = some (j, s') ∧ k ≤ j := by
  intro specs
  induction specs with
  | nil => intro instr k s hk _; simp at hk
  | cons s₀ rest ih =>
    intro instr k s hk hm
    cases k with
    | zero =>
      have hs : s = s₀ := by simpa using hk.symm
      subst hs
      rw [lastMatchSpec]
      cases hlm : lastMatchSpec rest instr with
      | some p => exact ⟨p.1 + 1, p.2, rfl, Nat.zero_le _⟩
      | none =>
        rw [if_pos hm]
        exact ⟨0, s, rfl, Nat.le_refl 0⟩
    | succ k' =>
      have hk' : rest.get? k' = some s := by simpa using hk
      obtain ⟨j₀, s₀', hlm, hle⟩ := ih hk' hm
      rw [lastMatchSpec, hlm]
      exact ⟨j₀ + 1, s₀', rfl, by omega⟩

theorem mergeLoopPure_fst {plan_id : List Char} {idMap : List (Option (List Char) × Nat)} :
    ∀ (rest : List TaskSpec) (store : List (List Char × Task)) (seq : Nat) (instr : List Char),
      dictGet? (mergeLoopPure plan_id idMap store seq rest).1 instr =
        (dictGet? store instr).map (lastUpd idMap rest instr seq) := by
  intro rest
  induction rest with
  | nil =>
    intro store seq instr
    simp only [mergeLoopPure]
    cases dictGet? store instr <;> rfl
  | cons s rest ih =>
    intro store seq instr
    simp only [mergeLoopPure]
    cases hget : dictGet? store (specInstr s) with
    | some ex =>
      dsimp only
      rw [ih, dictGet?_dictInsert]
      by_cases hI : instr = specInstr s
      · rw [hI, if_pos rfl, hget]
        simp only [Option.map, lastUpd, lastMatchSpec]
        cases hlm : lastMatchSpec rest (specInstr s) with
        | some p =>
          dsimp only
          rw [matchUpd_matchUpd]
          have harith : seq + 1 + p.1 = seq + (p.1 + 1) := by omega
          rw [harith]
        | none =>
          simp
      · rw [if_neg hI]
        cases hg2 : dictGet? store instr with
        | none => rfl
        | some t =>
          have hne : ¬ specInstr s = instr := fun h => hI h.symm
          simp only [Option.map, lastUpd, lastMatchSpec]
          cases hlm : lastMatchSpec rest instr with
          | some p =>
            dsimp only
            have harith : seq + 1 + p.1 = seq + (p.1 + 1) := by omega
            rw [harith]
          | none =>
            dsimp only
            rw [if_neg hne]
    | none =>
      dsimp only
      rw [ih]
      by_cases hI : instr = specInstr s
      · rw [hI, hget]
        rfl
      · cases hg2 : dictGet? store instr with
        | none => rfl
        | some t =>
          have hne : ¬ specInstr s = instr := fun h => hI h.symm
          simp only [Option.map, lastUpd, lastMatchSpec]
          cases hlm : lastMatchSpec rest instr with
          | some p =>
            dsimp only
            have harith : seq + 1 + p.1 = seq + (p.1 + 1) := by omega
            rw [harith]
          | none =>
            dsimp only
            rw [if_neg hne]

theorem mergeLoopPure_snd_get? {plan_id : List Char} {idMap : List (Option (List Char) × Nat)} :
    ∀ (rest : List TaskSpec) (store : List (List Char × Task)) (seq k : Nat),
      (mergeLoopPure plan_id idMap store seq rest).2.get? k =
        (rest.get? k).map (fun s =>
          match dictGet? store (specInstr s) with
          | some t => Sum.inl ((specInstr s, matchUpd idMap (seq + k) s t) : List Char × Task)
          | none => Sum.inr (freshTask plan_id idMap (seq + k) s)) := by
  intro rest
  induction rest with
  | nil => intro store seq k; simp [mergeLoopPure]
  | cons s rest ih =>
    intro store seq k
    simp only [mergeLoopPure]
    cases hget : dictGet? store (specInstr s) with
    | some ex =>
      dsimp only
      cases k with
      | zero =>
        simp only [List.get?_cons_zero, Option.map, hget, Nat.add_zero]
      | succ k' =>
        simp only [List.get?_cons_succ]
        rw [ih]
        cases hk : rest.get? k' with
        | none => rfl
        | some s₂ =>
          simp only [Option.map]
          rw [dictGet?_dictInsert]
          by_cases hI : specInstr s₂ = specInstr s
          · rw [if_pos hI, hI, hget]
            dsimp only
            rw [matchUpd_matchUpd]
            have harith : seq + 1 + k' = seq + (k' + 1) := by omega
            rw [harith]
          · rw [if_neg hI]
            have harith : seq + 1 + k' = seq + (k' + 1) := by omega
            rw [harith]
    | none =>
      dsimp only
      cases k with
      | zero =>
        simp only [List.get?_cons_zero, Option.map, hget, Nat.add_zero]
      | succ k' =>
        simp only [List.get?_cons_succ]
        rw [ih]
        cases hk : rest.get? k' with
        | none => rfl
        | some s₂ =>
          simp only [Option.map]
          have harith : seq + 1 + k' = seq + (k' + 1) := by omega
          rw [harith]

theorem lastUpd_fields (idMap : List (Option (List Char) × Nat)) (specs : List TaskSpec)
    (instr : List Char) (seq : Nat) (t : Task) :
    (lastUpd idMap specs instr seq t).result = t.result
    ∧ (lastUpd idMap specs instr seq t).is_success = t.is_success
    ∧ (lastUpd idMap specs instr seq t).is_finished = t.is_finished
    ∧ (lastUpd idMap specs instr seq t).instruction = t.instruction := by
  unfold lastUpd
  cases lastMatchSpec specs instr with
  | some p => exact ⟨rfl, rfl, rfl, rfl⟩
  | none => exact ⟨rfl, rfl, rfl, rfl⟩

theorem merge_tasks_from_json_ok {plan_id : List Char} {specs : List TaskSpec}
    {old : List Task} (h : ∀ s ∈ specs, mergeWfSpec s = true) :
    merge_tasks_from_json plan_id specs old =
      .ok (preservedPure specs 0 (completedMap old) ++
        (mergeLoopPure plan_id (buildIdMap specs (preservedCount specs old))
            (completedMap old) (preservedCount specs old) specs).2.map
          (resolveCell (mergeLoopPure plan_id (buildIdMap specs (preservedCount specs old))
            (completedMap old) (preservedCount specs old) specs).1)) := by
  have hinstr : ∀ s ∈ specs, s.instruction.isSome = true := fun s hs =>
    (mergeWfSpec_parts (h s hs)).2.1
  unfold merge_tasks_from_json
  rw [preservedLoop_ok hinstr (completedMap old) 0]
  dsimp only
  rw [mergeLoop_ok h]
  dsimp only
  rfl

theorem merged_get_matched (plan_id : List Char) {instr : List Char} {specs : List TaskSpec}
    {old : List Task} {t : Task} {k : Nat} {s : TaskSpec} {j : Nat} {s' : TaskSpec}
    (hwf : ∀ x ∈ specs, mergeWfSpec x = true)
    (hcm : dictGet? (completedMap old) instr = some t)
    (hk : specs.get? k = some s) (hins : s.instruction = some instr)
    (hlm : lastMatchSpec specs instr = some (j, s')) :
    ∃ ts, merge_tasks_from_json plan_id specs old = .ok ts ∧
      ts.get? (preservedCount specs old + k) =
        some (matchUpd (buildIdMap specs (preservedCount specs old))
          (preservedCount specs old + j) s' t) := by
  rw [merge_tasks_from_json_ok hwf]
  refine ⟨_, rfl, ?_⟩
  have hlen : (preservedPure specs 0 (completedMap old)).length =
      preservedCount specs old := rfl
  rw [List.get?_append_right (by rw [hlen]; omega)]
  rw [hlen]
  have harith : preservedCount specs old + k - preservedCount specs old = k := by omega
  rw [harith]
  rw [List.get?_map, mergeLoopPure_snd_get?, hk]
  have hsi : specInstr s = instr := by simp [specInstr, hins]
  simp only [Option.map, hsi, hcm]
  dsimp only [resolveCell]
  rw [mergeLoopPure_fst, hcm]
  simp only [Option.map, lastUpd, hlm]
  rfl

theorem mem_mergedPhase2 {plan_id : List Char} {idMap : List (Option (List Char) × Nat)}
    {specs : List TaskSpec} {store : List (List Char × Task)} {seq : Nat} {m : Task}
    (hm : m ∈ (mergeLoopPure plan_id idMap store seq specs).2.map
        (resolveCell (mergeLoopPure plan_id idMap store seq specs).1)) :
    ∃ k s, specs.get? k = some s ∧
      ((∃ t, dictGet? store (specInstr s) = some t
          ∧ m = lastUpd idMap specs (specInstr s) seq t)
       ∨ (dictGet? store (specInstr s) = none
          ∧ m = freshTask plan_id idMap (seq + k) s)) := by
  obtain ⟨k, hk⟩ := List.mem_iff_get?.mp hm
  rw [List.get?_map, mergeLoopPure_snd_get?] at hk
  cases hsk : specs.get? k with
  | none => rw [hsk] at hk; cases hk
  | some s =>
    rw [hsk] at hk
    simp only [Option.map] at hk
    refine ⟨k, s, hsk, ?_⟩
    cases hget : dictGet? store (specInstr s) with
    | some t =>
      rw [hget] at hk
      dsimp only at hk
      injection hk with hk'
      left
      refine ⟨t, rfl, ?_⟩
      rw [← hk']
      dsimp only [resolveCell]
      rw [mergeLoopPure_fst, hget]
      rfl
    | none =>
      rw [hget] at hk
      dsimp only at hk
      injection hk with hk'
      right
      exact ⟨rfl, hk'.symm⟩

theorem lastFinSucc_parts {old_tasks : List Task} {instr : List Char} {t : Task}
    (h : lastFinSucc old_tasks instr = some t) :
    t.is_finished = true ∧ t.is_success = true ∧ t.instruction = instr := by
  unfold lastFinSucc at h
  obtain ⟨hne, heq⟩ := List.mem_getLast?_eq_getLast (Option.mem_def.mpr h)
  have hmem : t ∈ old_tasks.filter (finSuccWith instr) := by
    rw [heq]
    exact List.getLast_mem hne
  have hp := (List.mem_filter.mp hmem).2
  unfold finSuccWith at hp
  simp only [Bool.and_eq_true, beq_iff_eq] at hp
  exact ⟨hp.1.1, hp.1.2, hp.2⟩

/-! ## Claim C3 -/

/-- C3, counterexample.  Two distinct finished-and-successful old tasks
share the instruction text `recon`; the completed-task dict keeps only
the later one, so for the earlier task (result `r1`) the merged task at
the position of the matching spec does not preserve its result — the
claim quantified over every finished-successful old task is false. -/
theorem C3_counterexample :
    exceptOk? (merge_tasks_from_json "p".toList
        [⟨some "a".toList, some "Shell".toList, some "recon".toList, some []⟩]
        [⟨"p".toList, 0, "Shell".toList, "recon".toList, [], [], "r1".toList, true, true⟩,
         ⟨"p".toList, 1, "Shell".toList, "recon".toList, [], [], "r2".toList, true, true⟩]) =
      some [⟨"p".toList, 0, "Shell".toList, "recon".toList, [], [], "r2".toList, true, true⟩]
    ∧ ("r1".toList : List Char) ≠ "r2".toList := by
  exact ⟨by decide, by decide⟩

/-- C3 (amended): the merge reuses completed tasks by reference.  For
the LAST finished-and-successful old task `t` with instruction `instr`
(the object the completed-task dict retains), if the `k`-th new spec has
instruction `instr`, the merged task at the corresponding position —
after the preserved completed tasks — is that object: result, success
and finished status, code, instruction and plan are those of `t`.
Because every matching spec appends the SAME object and rewrites its
sequence and dependencies in place, the position shows the object's
final state: its sequence is the merged position of the LAST spec
carrying `instr` (hence `preservedCount + k` exactly when no later spec
repeats the instruction) and its dependencies are the merged indices of
that last spec's dependent ids.  Matching is exact instruction-text
equality. -/
theorem C3_merge_reuses_completed_task
    (plan_id instr : List Char) (specs : List TaskSpec) (old_tasks : List Task)
    (t : Task) (k : Nat) (s : TaskSpec)
    (hwf : ∀ s' ∈ specs, mergeWfSpec s' = true)
    (hlast : lastFinSucc old_tasks instr = some t)
    (hk : specs.get? k = some s)
    (hins : s.instruction = some instr) :
    ∃ (m : Task) (j : Nat) (s' : TaskSpec),
      (exceptOk? (merge_tasks_from_json plan_id specs old_tasks)).bind
        (fun ts => ts.get? (preservedCount specs old_tasks + k)) = some m
      ∧ m.result = t.result ∧ m.is_success = t.is_success
      ∧ m.is_finished = t.is_finished ∧ m.code = t.code
      ∧ m.instruction = t.instruction ∧ m.plan_id = t.plan_id
      ∧ lastMatchSpec specs instr = some (j, s')
      ∧ k ≤ j ∧ s'.instruction = some instr
      ∧ m.sequence = preservedCount specs old_tasks + j
      ∧ m.dependencies = mergedDeps (buildIdMap specs (preservedCount specs old_tasks))
          (s'.dependent_task_ids.getD [])
      ∧ ((∀ k₂ s₂, k < k₂ → specs.get? k₂ = some s₂ → s₂.instruction ≠ some instr) → j = k) := by
  have hcm : dictGet? (completedMap old_tasks) instr = some t := by
    rw [dictGet?_completedMap]; exact hlast
  have hsi : specInstr s = instr := by simp [specInstr, hins]
  obtain ⟨j, s', hlm, hkj⟩ := lastMatchSpec_last hk hsi
  obtain ⟨hgj, hsj⟩ := lastMatchSpec_get? hlm
  have hs'mem : s' ∈ specs := List.get?_mem hgj
  have hs'ins : s'.instruction = some instr := by
    obtain ⟨_, hins', _⟩ := mergeWfSpec_parts (hwf s' hs'mem)
    obtain ⟨v, hv⟩ := Option.isSome_iff_exists.mp hins'
    have hvi : v = instr := by
      rw [specInstr, hv] at hsj
      simpa using hsj
    rw [hv, hvi]
  obtain ⟨ts, hts, hgetk⟩ := merged_get_matched plan_id hwf hcm hk hins hlm
  refine ⟨matchUpd (buildIdMap specs (preservedCount specs old_tasks))
      (preservedCount specs old_tasks + j) s' t, j, s', ?_, rfl, rfl, rfl, rfl, rfl, rfl,
      hlm, hkj, hs'ins, rfl, rfl, ?_⟩
  · rw [hts]
    simp only [exceptOk?, Option.some_bind]
    exact hgetk
  · intro hno
    rcases Nat.lt_or_ge k j with hlt | hge
    · exact absurd hs'ins (hno j s' hlt hgj)
    · omega

/-- C3 witness: the amended theorem applied to one completed old task
and a single matching new spec (the spec is the last match, so the
reused object keeps the matching position's sequence). -/
theorem C3_merge_reuses_completed_task_witness :
    ∃ (m : Task) (j : Nat) (s' : TaskSpec),
      (exceptOk? (merge_tasks_from_json "p".toList
          [⟨some "a".toList, some "Shell".toList, some "recon".toList, some []⟩]
          [⟨"p".toList, 0, "Shell".toList, "recon".toList, [], [], "rr".toList, true, true⟩])).bind
        (fun ts => ts.get? (preservedCount
            [⟨some "a".toList, some "Shell".toList, some "recon".toList, some []⟩]
            [⟨"p".toList, 0, "Shell".toList, "recon".toList, [], [], "rr".toList, true, true⟩] + 0)) =
          some m
      ∧ m.result = "rr".toList ∧ m.is_success = true
      ∧ m.is_finished = true ∧ m.code = ([] : List (List Char))
      ∧ m.instruction = "recon".toList ∧ m.plan_id = "p".toList
      ∧ lastMatchSpec
          [⟨some "a".toList, some "Shell".toList, some "recon".toList, some []⟩]
          "recon".toList = some (j, s')
      ∧ 0 ≤ j ∧ s'.instruction = some "recon".toList
      ∧ m.sequence = preservedCount
          [⟨some "a".toList, some "Shell".toList, some "recon".toList, some []⟩]
          [⟨"p".toList, 0, "Shell".toList, "recon".toList, [], [], "rr".toList, true, true⟩] + j
      ∧ m.dependencies = mergedDeps (buildIdMap
            [⟨some "a".toList, some "Shell".toList, some "recon".toList, some []⟩]
            (preservedCount
              [⟨some "a".toList, some "Shell".toList, some "recon".toList, some []⟩]
              [⟨"p".toList, 0, "Shell".toList, "recon".toList, [], [], "rr".toList, true, true⟩]))
          (s'.dependent_task_ids.getD [])
      ∧ ((∀ k₂ s₂, 0 < k₂ →
            ([⟨some "a".toList, some "Shell".toList, some "recon".toList, some []⟩] :
              List TaskSpec).get? k₂ = some s₂ → s₂.instruction ≠ some "recon".toList) → j = 0) :=
  C3_merge_reuses_completed_task "p".toList "recon".toList
    [⟨some "a".toList, some "Shell".toList, some "recon".toList, some []⟩]
    [⟨"p".toList, 0, "Shell".toList, "recon".toList, [], [], "rr".toList, true, true⟩]
    ⟨"p".toList, 0, "Shell".toList, "recon".toList, [], [], "rr".toList, true, true⟩
    0 ⟨some "a".toList, some "Shell".toList, some "recon".toList, some []⟩
    (by decide) (by decide) (by decide) (by decide)

/-! ## Claim C10 -/

/-- C10: merge keys preserved work by instruction text only.  When `t` is
the last finished-and-successful old task with instruction `instr`, every
merged task carrying `instr` inherits `t`'s result and status — so when
two distinct finished-successful old tasks share the instruction text,
only the later one survives the merge and the earlier one's recorded
result is dropped; and some merged task with that instruction always
remains. -/
theorem C10_duplicate_instruction_dropped
    (plan_id instr : List Char) (specs : List TaskSpec) (old_tasks : List Task) (t : Task)
    (hwf : ∀ s' ∈ specs, mergeWfSpec s' = true)
    (hlast : lastFinSucc old_tasks instr = some t) :
    ∃ ts, merge_tasks_from_json plan_id specs old_tasks = .ok ts
      ∧ (∀ m ∈ ts, m.instruction = instr →
          m.result = t.result ∧ m.is_success = t.is_success ∧ m.is_finished = t.is_finished)
      ∧ (∃ m ∈ ts, m.instruction = instr) := by
  have hcm : dictGet? (completedMap old_tasks) instr = some t := by
    rw [dictGet?_completedMap]; exact hlast
  rw [merge_tasks_from_json_ok hwf]
  refine ⟨_, rfl, ?_, ?_⟩
  · intro m hm hmi
    rcases List.mem_append.mp hm with h1 | h2
    · obtain ⟨kv, hkv, _hany, n', hm'⟩ := mem_preservedPure h1
      obtain ⟨hkey, _hfin, _hsuc⟩ := mem_completedMap _ hkv
      have hmins : m.instruction = kv.2.instruction := by rw [hm']
      have hkeyi : kv.1 = instr := by rw [hkey, ← hmins, hmi]
      have hmemi : (instr, kv.2) ∈ completedMap old_tasks := by
        have : kv = (instr, kv.2) := by
          obtain ⟨k1, v1⟩ := kv
          simp only at hkeyi
          rw [hkeyi]
        rw [← this]
        exact hkv
      have hlook := dictGet?_of_mem_nodup (completedMap_nodupKeys old_tasks) hmemi
      rw [hcm] at hlook
      have hvt : kv.2 = t := by
        injection hlook with hvt
        exact hvt.symm
      rw [hm', hvt]
      exact ⟨rfl, rfl, rfl⟩
    · obtain ⟨k, s, hks, hcase⟩ := mem_mergedPhase2 h2
      rcases hcase with ⟨t₀, hget, hmeq⟩ | ⟨hget, hmeq⟩
      · obtain ⟨hres, hsuc, hfin, hinstr_eq⟩ := lastUpd_fields
          (buildIdMap specs (preservedCount specs old_tasks)) specs (specInstr s)
          (preservedCount specs old_tasks) t₀
        have hmem0 := mem_completedMap _ (mem_of_dictGet? hget)
        have hkeyeq : specInstr s = t₀.instruction := hmem0.1
        have hminstr : m.instruction = t₀.instruction := by rw [hmeq]; exact hinstr_eq
        have hsi : specInstr s = instr := by rw [hkeyeq, ← hminstr, hmi]
        rw [hsi, hcm] at hget
        have ht0 : t₀ = t := by
          injection hget with h'
          exact h'.symm
        subst ht0
        rw [hmeq]
        exact ⟨hres, hsuc, hfin⟩
      · have hminstr : m.instruction = specInstr s := by rw [hmeq]; rfl
        rw [hminstr] at hmi
        rw [hmi, hcm] at hget
        cases hget
  · cases hany : specsAnyInstruction specs instr with
    | true =>
      obtain ⟨s', hs', hbeq⟩ := List.any_eq_true.mp hany
      have hins : s'.instruction = some instr := by simpa using hbeq
      obtain ⟨k, hk⟩ := List.mem_iff_get?.mp hs'
      have hsi : specInstr s' = instr := by simp [specInstr, hins]
      obtain ⟨j, s'', hlm, _⟩ := lastMatchSpec_last hk hsi
      obtain ⟨ts, hts, hgetk⟩ := merged_get_matched plan_id hwf hcm hk hins hlm
      rw [merge_tasks_from_json_ok hwf] at hts
      injection hts with hts'
      rw [hts']
      refine ⟨_, List.get?_mem hgetk, ?_⟩
      exact (lastFinSucc_parts hlast).2.2
    | false =>
      have hmemi : (instr, t) ∈ completedMap old_tasks := mem_of_dictGet? hcm
      obtain ⟨m, hm, n', hm'⟩ := preservedPure_mem_intro hmemi hany 0
      refine ⟨m, List.mem_append.mpr (Or.inl hm), ?_⟩
      rw [hm']
      exact (lastFinSucc_parts hlast).2.2

/-- C10 witness: two duplicate finished-successful old tasks and no new
specs; the theorem applied at these concrete inputs. -/
theorem C10_duplicate_instruction_dropped_witness :
    ∃ ts, merge_tasks_from_json "p".toList []
        [⟨"p".toList, 0, "Shell".toList, "recon".toList, [], [], "r1".toList, true, true⟩,
         ⟨"p".toList, 1, "Shell".toList, "recon".toList, [], [], "r2".toList, true, true⟩] = .ok ts
      ∧ (∀ m ∈ ts, m.instruction = "recon".toList →
          m.result = "r2".toList ∧ m.is_success = true ∧ m.is_finished = true)
      ∧ (∃ m ∈ ts, m.instruction = "recon".toList) :=
  C10_duplicate_instruction_dropped "p".toList "recon".toList []
    [⟨"p".toList, 0, "Shell".toList, "recon".toList, [], [], "r1".toList, true, true⟩,
     ⟨"p".toList, 1, "Shell".toList, "recon".toList, [], [], "r2".toList, true, true⟩]
    ⟨"p".toList, 1, "Shell".toList, "recon".toList, [], [], "r2".toList, true, true⟩
    (by decide) (by decide)

/-! ## Claim C9 -/

/-- C9: when the plan-revision response is empty (falsy) or its JSON
fails to parse, the merge phase of `update_plan` leaves the plan's task
list unchanged and continues to `next_task_details()` (second component
`true`) instead of raising. -/
theorem C9_failed_revision_keeps_tasks
    (parseJson : List Char → Except String (List TaskSpec))
    (plan_id : List Char) (updated_response : Option (List Char)) (tasks : List Task)
    (h : updated_response = none ∨ updated_response = some []
      ∨ ∃ r e, updated_response = some r ∧ parseJson (preprocess_json_string r) = .error e) :
    update_plan_merge_phase parseJson plan_id updated_response tasks = (tasks, true) := by
  rcases h with h | h | ⟨r, e, hr, hp⟩
  · subst h; rfl
  · subst h; rfl
  · subst hr
    rw [update_plan_merge_phase]
    by_cases hr0 : r = []
    · rw [if_pos hr0]
    · rw [if_neg hr0]
      rw [merge_tasks, if_neg hr0, hp]

/-- C9 witness: a revision whose JSON decoding fails leaves the single
existing task untouched and continues. -/
theorem C9_failed_revision_keeps_tasks_witness :
    update_plan_merge_phase (fun _ => .error "Expecting value") "p".toList
      (some "not json".toList)
      [⟨"p".toList, 0, "Shell".toList, "recon".toList, [], [], [], false, false⟩] =
      ([⟨"p".toList, 0, "Shell".toList, "recon".toList, [], [], [], false, false⟩], true) :=
  C9_failed_revision_keeps_tasks _ _ _ _
    (Or.inr (Or.inr ⟨"not json".toList, "Expecting value", rfl, rfl⟩))

/-- C8 witness: the amended theorem applied to a 32-character base and
sequence number 0. -/
theorem C8_derived_conv_id_witness :
    (deriveTaskConvId (List.replicate 32 'a') 0).length ≤ 32
    ∧ deriveTaskConvId (List.replicate 32 'a') 0 =
        (md5HexModel (List.replicate 32 'a')).take 20 ++ '_' :: 't' :: decRepr 0 :=
  ⟨(C8_derived_conv_id.1 (List.replicate 32 'a') 0 (by norm_num)).1,
   (C8_derived_conv_id.1 (List.replicate 32 'a') 0 (by norm_num)).2 (by decide)⟩

/-! ## Import lemmas -/

theorem wfSpec_parts {s : TaskSpec} (h : wfSpec s = true) :
    s.id.isSome = true ∧ s.action.isSome = true ∧ s.instruction.isSome = true ∧
      s.dependent_task_ids.isSome = true := by
  simp only [wfSpec, Bool.and_eq_true] at h
  exact ⟨h.1.1.1, h.1.1.2, h.1.2, h.2⟩

theorem importDepsLoop_ok {dep_ids : Option (List (List Char))} {d : List (List Char)}
    (hd : dep_ids = some d) :
    ∀ (rest : List TaskSpec), (∀ t ∈ rest, t.id.isSome = true) → ∀ i : Nat,
      importDepsLoop dep_ids i rest = .ok (importDepsPure d i rest) := by
  intro rest
  induction rest with
  | nil => intro _ i; rfl
  | cons t rest ih =>
    intro h i
    obtain ⟨tid, htid⟩ := Option.isSome_iff_exists.mp (h t (List.mem_cons_self _ _))
    have ihh := ih (fun t' ht' => h t' (List.mem_cons_of_mem _ ht')) (i + 1)
    rw [hd] at ihh
    rw [importDepsLoop, htid, getKey_some]
    dsimp only
    rw [hd, getKey_some]
    dsimp only
    rw [ihh]
    dsimp only
    simp only [importDepsPure, htid]
    by_cases hmem : tid ∈ d
    · rw [if_pos hmem, if_pos hmem]
      rfl
    · rw [if_neg hmem, if_neg hmem]
      rfl

theorem importLoop_ok {plan_id : List Char} {specs : List TaskSpec}
    (hall : ∀ s ∈ specs, wfSpec s = true) :
    ∀ (rest : List TaskSpec), (∀ s ∈ rest, wfSpec s = true) → ∀ idx : Nat,
      importLoop plan_id specs idx rest = .ok (importPure plan_id specs idx rest) := by
  intro rest
  induction rest with
  | nil => intro _ idx; rfl
  | cons td rest ih =>
    intro h idx
    obtain ⟨_, hact, hins, hdep⟩ := wfSpec_parts (h td (List.mem_cons_self _ _))
    obtain ⟨a, ha⟩ := Option.isSome_iff_exists.mp hact
    obtain ⟨ins, hins'⟩ := Option.isSome_iff_exists.mp hins
    obtain ⟨d, hd⟩ := Option.isSome_iff_exists.mp hdep
    have hids : ∀ t ∈ specs, t.id.isSome = true := fun t ht => (wfSpec_parts (hall t ht)).1
    rw [importLoop, ha, getKey_some]
    dsimp only
    rw [hins', getKey_some]
    dsimp only
    rw [importDepsLoop_ok hd specs hids 0]
    dsimp only
    rw [ih (fun s' hs' => h s' (List.mem_cons_of_mem _ hs')) (idx + 1)]
    dsimp only
    simp only [importPure, ha, hins', hd, Option.getD_some]

theorem import_tasks_from_json_ok {plan_id : List Char} {specs : List TaskSpec}
    (h : ∀ s ∈ specs, wfSpec s = true) :
    import_tasks_from_json plan_id specs = .ok (importPure plan_id specs 0 specs) :=
  importLoop_ok h specs h 0

theorem importPure_length {plan_id : List Char} {specs : List TaskSpec} :
    ∀ (rest : List TaskSpec) (idx : Nat),
      (importPure plan_id specs idx rest).length = rest.length := by
  intro rest
  induction rest with
  | nil => intro idx; rfl
  | cons td rest ih =>
    intro idx
    simp only [importPure, List.length_cons, ih (idx + 1)]

theorem importPure_get? {plan_id : List Char} {specs : List TaskSpec} :
    ∀ (rest : List TaskSpec) (idx k : Nat),
      (importPure plan_id specs idx rest).get? k =
        (rest.get? k).map (fun td =>
          ⟨plan_id, idx + k, td.action.getD [], td.instruction.getD [],
           importDepsPure (td.dependent_task_ids.getD []) 0 specs, [], [], false, false⟩) := by
  intro rest
  induction rest with
  | nil => intro idx k; simp [importPure]
  | cons td rest ih =>
    intro idx k
    cases k with
    | zero => simp [importPure]
    | succ k =>
      show (importPure plan_id specs (idx + 1) rest).get? k = _
      rw [ih (idx + 1) k]
      have harith : idx + 1 + k = idx + (k + 1) := by omega
      rw [harith]
      rfl

theorem mem_importDepsPure {d : List (List Char)} :
    ∀ {rest : List TaskSpec} {i x : Nat}, x ∈ importDepsPure d i rest →
      ∃ j s tid, rest.get? j = some s ∧ s.id = some tid ∧ tid ∈ d ∧ x = i + j := by
  intro rest
  induction rest with
  | nil => intro i x h; simp [importDepsPure] at h
  | cons t rest ih =>
    intro i x h
    rw [importDepsPure] at h
    rcases List.mem_append.mp h with h1 | h1
    · cases htid : t.id with
      | none => rw [htid] at h1; simp at h1
      | some tid =>
        rw [htid] at h1
        dsimp only at h1
        by_cases hmem : tid ∈ d
        · rw [if_pos hmem] at h1
          simp only [List.mem_singleton] at h1
          subst h1
          exact ⟨0, t, tid, rfl, htid, hmem, by omega⟩
        · rw [if_neg hmem] at h1
          simp at h1
    · obtain ⟨j, s, tid, hj, hid, hmem, hx⟩ := ih h1
      refine ⟨j + 1, s, tid, by simpa using hj, hid, hmem, by omega⟩

theorem importDepsLoop_ok_wf {dep_ids : Option (List (List Char))} :
    ∀ {rest : List TaskSpec} {i : Nat} {ds : List Nat},
      importDepsLoop dep_ids i rest = .ok ds →
      rest = [] ∨ (dep_ids.isSome = true ∧ ∀ t ∈ rest, t.id.isSome = true) := by
  intro rest
  induction rest with
  | nil => intro i ds _; exact Or.inl rfl
  | cons t rest ih =>
    intro i ds h
    right
    rw [importDepsLoop] at h
    cases htid : t.id with
    | none => rw [htid] at h; simp [getKey] at h
    | some tid =>
      rw [htid, getKey_some] at h
      dsimp only at h
      cases hdep : dep_ids with
      | none => rw [hdep] at h; simp [getKey] at h
      | some d0 =>
        rw [hdep, getKey_some] at h
        dsimp only at h
        cases hrec : importDepsLoop (some d0) (i + 1) rest with
        | error e => rw [hrec] at h; simp at h
        | ok tail =>
          refine ⟨by simp [hdep], ?_⟩
          intro t' ht'
          rcases List.mem_cons.mp ht' with he | he
          · subst he; simp [htid]
          · have hrec' : importDepsLoop dep_ids (i + 1) rest = .ok tail := by
              rw [hdep]; exact hrec
            rcases ih hrec' with hnil | ⟨_, hall⟩
            · subst hnil; simp at he
            · exact hall t' he

theorem importLoop_ok_wf {plan_id : List Char} {specs : List TaskSpec} :
    ∀ {rest : List TaskSpec} {idx : Nat} {ts : List Task},
      importLoop plan_id specs idx rest = .ok ts →
      ∀ td ∈ rest, td.action.isSome = true ∧ td.instruction.isSome = true ∧
        ∃ ds, importDepsLoop td.dependent_task_ids 0 specs = .ok ds := by
  intro rest
  induction rest with
  | nil => intro idx ts _ td htd; simp at htd
  | cons td0 rest ih =>
    intro idx ts h td htd
    rw [importLoop] at h
    cases hact : td0.action with
    | none => rw [hact] at h; simp [getKey] at h
    | some a =>
      rw [hact, getKey_some] at h
      dsimp only at h
      cases hins : td0.instruction with
      | none => rw [hins] at h; simp [getKey] at h
      | some ins =>
        rw [hins, getKey_some] at h
        dsimp only at h
        cases hdl : importDepsLoop td0.dependent_task_ids 0 specs with
        | error e => rw [hdl] at h; simp at h
        | ok ds =>
          rw [hdl] at h
          dsimp only at h
          cases hrec : importLoop plan_id specs (idx + 1) rest with
          | error e => rw [hrec] at h; simp at h
          | ok tail =>
            rcases List.mem_cons.mp htd with he | he
            · subst he
              exact ⟨by simp [hact], by simp [hins], ds, hdl⟩
            · exact ih hrec td he

theorem import_ok_wf {plan_id : List Char} {specs : List TaskSpec} {ts : List Task}
    (h : import_tasks_from_json plan_id specs = .ok ts) :
    ∀ s ∈ specs, wfSpec s = true := by
  intro s hs
  obtain ⟨hact, hins, ds, hdl⟩ := importLoop_ok_wf h s hs
  rcases importDepsLoop_ok_wf hdl with hnil | ⟨hdep, hids⟩
  · subst hnil; simp at hs
  · have hid := hids s hs
    simp [wfSpec, hid, hact, hins, hdep]

/-! ## Claim C4 -/

/-- C4, counterexample.  A spec whose `dependent_task_ids` lists an id
matching no spec imports successfully — the unknown reference is silently
dropped from the dependencies — whereas the claim requires the import to
fail. -/
theorem C4_counterexample :
    exceptOk? (import_tasks_from_json "p".toList
        [⟨some "a".toList, some "Shell".toList, some "recon".toList, some ["zzz".toList]⟩]) =
      some [⟨"p".toList, 0, "Shell".toList, "recon".toList, [], [], [], false, false⟩] := by
  decide

/-- C4 (amended): the import fails whenever some spec is missing a
required field (`id`, `action`, `instruction` or `dependent_task_ids` —
every spec's `id` is read while computing any spec's dependencies); with
all fields present it succeeds, and each task's dependencies are exactly
the positions of the specs whose `id` is listed — a dependent id matching
no spec's id is silently ignored, not an error. -/
theorem C4_import_missing_fields :
    (∀ (plan_id : List Char) (specs : List TaskSpec),
        (∃ s ∈ specs, wfSpec s = false) →
        ∃ e, import_tasks_from_json plan_id specs = .error e)
    ∧ (∀ (plan_id : List Char) (specs : List TaskSpec),
        (∀ s ∈ specs, wfSpec s = true) →
        ∃ ts, import_tasks_from_json plan_id specs = .ok ts ∧
          ∀ (k : Nat) (s : TaskSpec) (d : List (List Char)),
            specs.get? k = some s → s.dependent_task_ids = some d →
            ∃ m, ts.get? k = some m ∧ m.dependencies = importDepsPure d 0 specs ∧
              ∀ x ∈ m.dependencies,
                ∃ j s' tid, specs.get? j = some s' ∧ s'.id = some tid ∧ tid ∈ d) := by
  constructor
  · intro plan_id specs ⟨s, hs, hbad⟩
    cases himp : import_tasks_from_json plan_id specs with
    | error e => exact ⟨e, rfl⟩
    | ok ts =>
      have := import_ok_wf himp s hs
      rw [hbad] at this
      cases this
  · intro plan_id specs h
    rw [import_tasks_from_json_ok h]
    refine ⟨_, rfl, ?_⟩
    intro k s d hk hd
    rw [importPure_get?, hk]
    refine ⟨_, rfl, ?_, ?_⟩
    · simp [hd]
    · intro x hx
      simp only [hd, Option.getD_some] at hx
      obtain ⟨j, s', tid, hj, hid, hmem, _⟩ := mem_importDepsPure hx
      exact ⟨j, s', tid, hj, hid, hmem⟩

/-- C4 witness: the amended theorem applied to a one-spec list missing
`action`, and to a well-formed one-spec list with an unknown dependent
id. -/
theorem C4_import_missing_fields_witness :
    (∃ e, import_tasks_from_json "p".toList
        [⟨some "a".toList, none, some "recon".toList, some []⟩] = .error e)
    ∧ (∃ ts, import_tasks_from_json "p".toList
        [⟨some "a".toList, some "Shell".toList, some "recon".toList, some ["zzz".toList]⟩] =
          .ok ts ∧
        ∀ (k : Nat) (s : TaskSpec) (d : List (List Char)),
          [⟨some "a".toList, some "Shell".toList, some "recon".toList,
            some ["zzz".toList]⟩].get? k = some s →
          s.dependent_task_ids = some d →
          ∃ m, ts.get? k = some m ∧
            m.dependencies = importDepsPure d 0
              [⟨some "a".toList, some "Shell".toList, some "recon".toList, some ["zzz".toList]⟩] ∧
            ∀ x ∈ m.dependencies,
              ∃ j s' tid, ([⟨some "a".toList, some "Shell".toList, some "recon".toList,
                some ["zzz".toList]⟩] : List TaskSpec).get? j = some s' ∧ s'.id = some tid ∧
                tid ∈ d) :=
  ⟨C4_import_missing_fields.1 "p".toList
      [⟨some "a".toList, none, some "recon".toList, some []⟩]
      ⟨⟨some "a".toList, none, some "recon".toList, some []⟩,
        List.mem_cons_self _ _, by decide⟩,
   C4_import_missing_fields.2 "p".toList
      [⟨some "a".toList, some "Shell".toList, some "recon".toList, some ["zzz".toList]⟩]
      (by decide)⟩

/-! ## Claim C5 -/

/-- C5, counterexample.  Both dependent-id references resolve, but the
first spec references the id of the second, so the imported first task
stores dependency index 1, strictly greater than its own position 0 —
refuting the claim's bound. -/
theorem C5_counterexample :
    exceptOk? (import_tasks_from_json "p".toList
        [⟨some "a".toList, some "Shell".toList, some "first".toList, some ["b".toList]⟩,
         ⟨some "b".toList, some "Shell".toList, some "second".toList, some []⟩]) =
      some [⟨"p".toList, 0, "Shell".toList, "first".toList, [1], [], [], false, false⟩,
            ⟨"p".toList, 1, "Shell".toList, "second".toList, [], [], [], false, false⟩]
    ∧ ¬ (1 ≤ 0) := by
  exact ⟨by decide, by decide⟩

/-- C5 (amended): for well-formed specs the import always yields the
dense sequence numbers 0..N-1 in input order; the bound `dependency index
≤ own position` holds under the additional hypothesis that no spec lists
the id of a strictly later spec (the import itself never enforces the
bound: a forward reference is stored as a forward index). -/
theorem C5_import_dense_sequencing :
    ∀ (plan_id : List Char) (specs : List TaskSpec), (∀ s ∈ specs, wfSpec s = true) →
      ∃ ts, import_tasks_from_json plan_id specs = .ok ts
        ∧ ts.length = specs.length
        ∧ (∀ (k : Nat) (m : Task), ts.get? k = some m → m.sequence = k)
        ∧ ((∀ (k j : Nat) (s s' : TaskSpec) (tid : List Char) (d : List (List Char)),
              specs.get? k = some s → specs.get? j = some s' →
              s.dependent_task_ids = some d → s'.id = some tid → tid ∈ d → j ≤ k) →
            ∀ m ∈ ts, ∀ x ∈ m.dependencies, x ≤ m.sequence) := by
  intro plan_id specs h
  rw [import_tasks_from_json_ok h]
  refine ⟨_, rfl, importPure_length specs 0, ?_, ?_⟩
  · intro k m hk
    rw [importPure_get?] at hk
    cases hsk : specs.get? k with
    | none => rw [hsk] at hk; cases hk
    | some td =>
      rw [hsk] at hk
      injection hk with hk
      rw [← hk]
      dsimp only
      omega
  · intro hb m hm x hx
    obtain ⟨k, hk⟩ := List.mem_iff_get?.mp hm
    rw [importPure_get?] at hk
    cases hsk : specs.get? k with
    | none => rw [hsk] at hk; cases hk
    | some td =>
      rw [hsk] at hk
      injection hk with hk
      obtain ⟨_, _, _, hdep⟩ := wfSpec_parts (h td (by
        have := List.get?_eq_some.mp hsk
        obtain ⟨hlt, hget⟩ := this
        rw [← hget]
        exact List.get_mem _ _ _))
      obtain ⟨d, hd⟩ := Option.isSome_iff_exists.mp hdep
      rw [← hk] at hx
      simp only [hd, Option.getD_some] at hx
      obtain ⟨j, s', tid, hj, hid, hmem, hxj⟩ := mem_importDepsPure hx
      have hle := hb k j td s' tid d hsk hj hd hid hmem
      rw [← hk]
      dsimp only
      omega

/-- C5 witness: the dense-numbering theorem applied to a two-spec plan
with a backward reference. -/
theorem C5_import_dense_sequencing_witness :
    ∃ ts, import_tasks_from_json "p".toList
        [⟨some "a".toList, some "Shell".toList, some "first".toList, some []⟩,
         ⟨some "b".toList, some "Shell".toList, some "second".toList, some ["a".toList]⟩] =
        .ok ts
      ∧ ts.length = 2
      ∧ (∀ (k : Nat) (m : Task), ts.get? k = some m → m.sequence = k)
      ∧ ((∀ (k j : Nat) (s s' : TaskSpec) (tid : List Char) (d : List (List Char)),
            [⟨some "a".toList, some "Shell".toList, some "first".toList, some []⟩,
             ⟨some "b".toList, some "Shell".toList, some "second".toList,
              some ["a".toList]⟩].get? k = some s →
            [⟨some "a".toList, some "Shell".toList, some "first".toList, some []⟩,
             ⟨some "b".toList, some "Shell".toList, some "second".toList,
              some ["a".toList]⟩].get? j = some s' →
            s.dependent_task_ids = some d → s'.id = some tid → tid ∈ d → j ≤ k) →
          ∀ m ∈ ts, ∀ x ∈ m.dependencies, x ≤ m.sequence) :=
  C5_import_dense_sequencing "p".toList
    [⟨some "a".toList, some "Shell".toList, some "first".toList, some []⟩,
     ⟨some "b".toList, some "Shell".toList, some "second".toList, some ["a".toList]⟩]
    (by decide)

end VB
